import Mathlib

/-!
Verification of the JSON-to-graph visualization engine of the
developer-utils repository (src/src/components/JsonVisualizer.tsx).

The TypeScript `createGraph` closure is embedded shallowly:
* JSON values are the inductive `JSON` (numbers carried as integers;
  no claim depends on numeric payloads).
* The mutable `nodes`/`edges` arrays plus the `nodeId` counter become a
  `TraverseState` threaded through `traverse`.
* The JS `expandedNodes: Set<string>` is a membership function
  `E : String → Bool` (mirroring `Set.has`).
* The in-place layout mutation (`positionNodes`) becomes an index-based
  rewrite of the node list (`placeAll`), preserving the original array
  order exactly as the in-place mutation does.  JavaScript enumerates
  the integer-like keys of `levelGroups` in ascending numeric order,
  which `levelsOf` reproduces.
* The wheel / pinch zoom handlers become a step function over a
  `ViewportState`, with distances and deltas as rationals.
-/

namespace JsonVisualizer

/-- A parsed JSON document (the result of `JSON.parse`). -/
inductive JSON where
  | obj : List (String × JSON) → JSON
  | arr : List JSON → JSON
  | str : String → JSON
  | num : Int → JSON
  | bool : Bool → JSON
  | null : JSON

/-- `Array.isArray(value) ? 'array' : value === null ? 'null' : typeof value`. -/
def JSON.typeOf : JSON → String
  | .arr _ => "array"
  | .null => "null"
  | .obj _ => "object"
  | .str _ => "string"
  | .num _ => "number"
  | .bool _ => "boolean"

/-- `(type === 'object' && value !== null && Object.keys(value).length > 0) ||
    (type === 'array' && value.length > 0)`. -/
def hasChildrenJSON : JSON → Bool
  | .obj kvs => !kvs.isEmpty
  | .arr vs => !vs.isEmpty
  | _ => false

/-- Number of entries of a container (`Object.keys(value).length` / `value.length`). -/
def childCount : JSON → Nat
  | .obj kvs => kvs.length
  | .arr vs => vs.length
  | _ => 0

/-- The `GraphNode` interface of the source. -/
structure GraphNode where
  id : String
  key : String
  value : JSON
  type : String
  x : Int
  y : Int
  width : Int
  height : Int
  children : List String
  parent : Option String
  level : Nat
  isExpanded : Bool

/-- The `GraphEdge` interface of the source. -/
structure GraphEdge where
  from_ : String
  to_ : String
  fromSide : String
  toSide : String

/-- The mutable state of `createGraph`: the `nodeId` counter and the
`nodes` / `edges` arrays. -/
structure TraverseState where
  nodeId : Nat
  nodes : List GraphNode
  edges : List GraphEdge

/-- The template literal `node-${nodeId++}` (decimal rendering). -/
def nodeIdStr (k : Nat) : String := "node-" ++ Nat.repr k

/-- `nodes.find(n => n.id === parentId)` followed by
`parentNode.children.push(currentId)`: update the first node whose id
matches, appending the child id to its `children` list. -/
def addChild (parentId childId : String) : List GraphNode → List GraphNode
  | [] => []
  | n :: rest =>
    if n.id = parentId then { n with children := n.children ++ [childId] } :: rest
    else n :: addChild parentId childId rest

mutual

/-- The recursive `traverse(value, key, parentId?, level)` of `createGraph`. -/
def traverse (E : String → Bool) (value : JSON) (key : String)
    (parentId : Option String) (level : Nat) (st : TraverseState) : TraverseState :=
  let currentId := nodeIdStr st.nodeId
  let isExpanded := E currentId
  let hasChildren := hasChildrenJSON value
  let extraHeight : Int :=
    if hasChildren && isExpanded then min ((childCount value : Int) * 25) 150 else 0
  let node : GraphNode :=
    { id := currentId, key := key, value := value, type := value.typeOf,
      x := 0, y := 0, width := 220, height := 100 + extraHeight,
      children := [], parent := parentId, level := level, isExpanded := isExpanded }
  let nodes1 := st.nodes ++ [node]
  let nodes2 := match parentId with
    | none => nodes1
    | some pid => addChild pid currentId nodes1
  let edges2 := match parentId with
    | none => st.edges
    | some pid =>
        st.edges ++ [{ from_ := pid, to_ := currentId,
                       fromSide := "right", toSide := "left" }]
  let st1 : TraverseState := { nodeId := st.nodeId + 1, nodes := nodes2, edges := edges2 }
  if hasChildren && isExpanded then
    match value with
    | JSON.obj kvs => traverseObj E kvs currentId (level + 1) st1
    | JSON.arr vs => traverseArr E vs 0 currentId (level + 1) st1
    | _ => st1
  else st1
termination_by sizeOf value

/-- `Object.entries(value).forEach(([childKey, childValue]) =>
      traverse(childValue, childKey, currentId, level + 1))`. -/
def traverseObj (E : String → Bool) (entries : List (String × JSON))
    (parentId : String) (level : Nat) (st : TraverseState) : TraverseState :=
  match entries with
  | [] => st
  | (k, v) :: rest =>
      traverseObj E rest parentId level (traverse E v k (some parentId) level st)
termination_by sizeOf entries

/-- `value.forEach((item, index) =>
      traverse(item, `[index]`, currentId, level + 1))`. -/
def traverseArr (E : String → Bool) (items : List JSON) (index : Nat)
    (parentId : String) (level : Nat) (st : TraverseState) : TraverseState :=
  match items with
  | [] => st
  | v :: rest =>
      traverseArr E rest (index + 1) parentId level
        (traverse E v ("[" ++ Nat.repr index ++ "]") (some parentId) level st)
termination_by sizeOf items

end

/-- The largest `level` occurring in the node list (0 when empty). -/
def maxLevel (nodes : List GraphNode) : Nat :=
  (nodes.map (fun n => n.level)).foldl max 0

/-- The keys of `levelGroups` in the order `Object.entries` enumerates them:
integer-like keys ascend numerically in JavaScript. -/
def levelsOf (nodes : List GraphNode) : List Nat :=
  (List.range (maxLevel nodes + 1)).filter
    (fun l => nodes.any (fun n => n.level = l))

/-- The indices (into the `nodes` array) of the group `levelGroups[l]`,
in push order, i.e. original array order. -/
def levelIndices (nodes : List GraphNode) (l : Nat) : List Nat :=
  (List.range nodes.length).filter
    (fun i => match nodes.get? i with
              | some n => n.level = l
              | none => false)

/-- The order in which the nested `forEach` loops of `positionNodes`
visit the nodes: group by level, levels ascending, original order
within a group. -/
def layoutOrder (nodes : List GraphNode) : List Nat :=
  (levelsOf nodes).flatMap (fun l => levelIndices nodes l)

/-- The body of the two nested loops of `positionNodes`: visit the node at
each index in turn, set `node.x = level * 300 + 50`, `node.y = currentY`,
then `currentY += node.height + 30`.  The cursor `currentY` is shared
across all levels, exactly as in the source. -/
def placeAll : List Nat → Int → List GraphNode → List GraphNode
  | [], _, nodes => nodes
  | i :: rest, y, nodes =>
    match nodes.get? i with
    | none => placeAll rest y nodes
    | some n =>
        placeAll rest (y + n.height + 30)
          (nodes.set i { n with x := (n.level : Int) * 300 + 50, y := y })

/-- `positionNodes()`: hierarchical layout, mutating coordinates in place
(`currentY` starts at 50). -/
def positionNodes (nodes : List GraphNode) : List GraphNode :=
  placeAll (layoutOrder nodes) 50 nodes

/-- The `{nodes, edges}` value returned by `createGraph`. -/
structure Graph where
  nodes : List GraphNode
  edges : List GraphEdge

/-- `createGraph` after a successful `JSON.parse`: traverse the parsed
value with key `'root'`, no parent, level 0, then run the layout pass. -/
def createGraph (E : String → Bool) (parsed : JSON) : Graph :=
  let st := traverse E parsed "root" none 0 ⟨0, [], []⟩
  { nodes := positionNodes st.nodes, edges := st.edges }

/-- JavaScript `String.prototype.trim()`: strip leading and trailing
whitespace (modelled executably; Lean's `String.trim` is extensionally the
same but its byte-position recursion does not reduce in the kernel). -/
def jsTrim (s : String) : String :=
  ⟨((s.data.dropWhile Char.isWhitespace).reverse.dropWhile
      Char.isWhitespace).reverse⟩

/-- `createGraph` on the raw input string: a blank input (or a parse
failure, `parse input = none`) leaves the arrays empty; the layout pass
still runs (on the empty array). -/
def createGraphRaw (parse : String → Option JSON) (E : String → Bool)
    (jsonInput : String) : Graph :=
  if jsTrim jsonInput ≠ "" then
    match parse jsonInput with
    | some parsed => createGraph E parsed
    | none => { nodes := positionNodes [], edges := [] }
  else { nodes := positionNodes [], edges := [] }

/-- The overlay rendered when `nodes.length === 0`:
`jsonInput.trim() ? 'Invalid JSON format' : 'Enter JSON to visualize'`. -/
def overlayMessage (nodes : List GraphNode) (jsonInput : String) : Option String :=
  if nodes.length = 0 then
    some (if jsTrim jsonInput ≠ "" then "Invalid JSON format"
          else "Enter JSON to visualize")
  else none

/-! ### Viewport (zoom) model -/
/-- The state touched by the wheel / pinch handlers: the `zoom` factor and
`lastTouchDistance` (a JS `number | null`; the code also tests it for
truthiness, so `some 0` behaves like `null`). -/
structure ViewportState where
  zoom : ℚ
  lastTouchDistance : Option ℚ

/-- The events the zoom invariant quantifies over.  Touch events carry the
number of active touches and the computed two-finger distance (the JS
`getTouchDistance` result; `sqrt` of a sum of squares, here an arbitrary
rational). -/
inductive ZoomEvent where
  | wheel (ctrlKey : Bool) (deltaY : ℚ)
  | touchStart (touchCount : Nat) (dist : ℚ)
  | touchMove (touchCount : Nat) (dist : ℚ)
  | touchEnd

/-- `getTouchDistance`: `null` unless two or more touches. -/
def getTouchDistance (touchCount : Nat) (dist : ℚ) : Option ℚ :=
  if touchCount < 2 then none else some dist

/-- One step of the wheel / touch handlers (`handleWheel`,
`handleTouchStart`, `handleTouchMove`, `handleTouchEnd`). -/
def stepZoom (s : ViewportState) : ZoomEvent → ViewportState
  | .wheel ctrlKey deltaY =>
      if ctrlKey then
        let delta : ℚ := if deltaY > 0 then 0.95 else 1.05
        { s with zoom := max 0.1 (min 3 (s.zoom * delta)) }
      else s
  | .touchStart touchCount dist =>
      if touchCount = 2 then
        { s with lastTouchDistance := getTouchDistance touchCount dist }
      else s
  | .touchMove touchCount dist =>
      match s.lastTouchDistance with
      | some d0 =>
          if touchCount = 2 ∧ d0 ≠ 0 then
            match getTouchDistance touchCount dist with
            | some d =>
                if d ≠ 0 then
                  let rawScale := d / d0
                  let dampedScale := 1 + (rawScale - 1) * 0.3
                  { zoom := max 0.1 (min 3 (s.zoom * dampedScale)),
                    lastTouchDistance := some d }
                else s
            | none => s
          else s
      | none => s
  | .touchEnd => { s with lastTouchDistance := none }

/-! ### Injectivity of the decimal id rendering

`nodeIdStr` uses `Nat.repr`; we prove `Nat.repr` injective by exhibiting a
decode round-trip for the digit list it produces. -/
/-- Numeric value of a decimal digit character. -/
def digitVal (c : Char) : Nat := c.toNat - 48

/-- Reference decimal digit list (most significant first). -/
def decDigits (n : Nat) : List Char :=
  if n < 10 then [Nat.digitChar n]
  else decDigits (n / 10) ++ [Nat.digitChar (n % 10)]
termination_by n
decreasing_by exact Nat.div_lt_self (by omega) (by omega)

/-- Decoding with an accumulator, exactly the shape of a left fold over
the digit characters. -/
def decodeAux (a : Nat) (l : List Char) : Nat :=
  l.foldl (fun acc c => acc * 10 + digitVal c) a

/-! ### A compositional characterization of one `traverse` visit -/
/-- The node literal pushed by one visit of `traverse` at counter `c`. -/
def mkNode (E : String → Bool) (value : JSON) (key : String)
    (parentId : Option String) (level : Nat) (c : Nat) : GraphNode :=
  { id := nodeIdStr c, key := key, value := value, type := value.typeOf,
    x := 0, y := 0, width := 220,
    height := 100 +
      (if hasChildrenJSON value && E (nodeIdStr c) then
        min ((childCount value : Int) * 25) 150 else 0),
    children := [], parent := parentId, level := level,
    isExpanded := E (nodeIdStr c) }

/-- The non-recursive part of one `traverse` visit: push the node, push the
parent edge, register the child in the parent's `children` list, bump the
counter. -/
def traverseStep (E : String → Bool) (value : JSON) (key : String)
    (parentId : Option String) (level : Nat) (st : TraverseState) : TraverseState :=
  let currentId := nodeIdStr st.nodeId
  let node := mkNode E value key parentId level st.nodeId
  let nodes1 := st.nodes ++ [node]
  { nodeId := st.nodeId + 1,
    nodes := match parentId with
             | none => nodes1
             | some pid => addChild pid currentId nodes1,
    edges := match parentId with
             | none => st.edges
             | some pid =>
                 st.edges ++ [{ from_ := pid, to_ := currentId,
                                fromSide := "right", toSide := "left" }] }

/-! ### The id sequence -/
/-- The ids present after the counter has reached `c`:
`node-0, node-1, …, node-(c-1)`. -/
def idsOf (c : Nat) : List String := (List.range' 0 c).map nodeIdStr

/-! ### Shape of the traversal output: counter, id sequence, edge targets -/
/-- The counter value at which the freshly appended edge targets start:
the root call (no parent) contributes no edge for its own node. -/
def tgtStart : Option String → Nat → Nat
  | none, c => c + 1
  | some _, c => c

/-- Statement of the shape facts for `traverse`. -/
def ShapeT (E : String → Bool) (value : JSON) (key : String)
    (parentId : Option String) (level : Nat) (st : TraverseState) : Prop :=
  st.nodes.map (fun n => n.id) = idsOf st.nodeId →
    st.nodeId < (traverse E value key parentId level st).nodeId ∧
    (traverse E value key parentId level st).nodes.map (fun n => n.id) =
      idsOf (traverse E value key parentId level st).nodeId ∧
    (traverse E value key parentId level st).edges.map (fun e => e.to_) =
      st.edges.map (fun e => e.to_) ++
        (List.range' (tgtStart parentId st.nodeId)
          ((traverse E value key parentId level st).nodeId -
            tgtStart parentId st.nodeId)).map nodeIdStr

/-- Statement of the shape facts for `traverseArr`. -/
def ShapeA (E : String → Bool) (items : List JSON) (index : Nat)
    (parentId : String) (level : Nat) (st : TraverseState) : Prop :=
  st.nodes.map (fun n => n.id) = idsOf st.nodeId →
    st.nodeId ≤ (traverseArr E items index parentId level st).nodeId ∧
    (traverseArr E items index parentId level st).nodes.map (fun n => n.id) =
      idsOf (traverseArr E items index parentId level st).nodeId ∧
    (traverseArr E items index parentId level st).edges.map (fun e => e.to_) =
      st.edges.map (fun e => e.to_) ++
        (List.range' st.nodeId
          ((traverseArr E items index parentId level st).nodeId - st.nodeId)).map
          nodeIdStr

/-- Statement of the shape facts for `traverseObj`. -/
def ShapeO (E : String → Bool) (entries : List (String × JSON))
    (parentId : String) (level : Nat) (st : TraverseState) : Prop :=
  st.nodes.map (fun n => n.id) = idsOf st.nodeId →
    st.nodeId ≤ (traverseObj E entries parentId level st).nodeId ∧
    (traverseObj E entries parentId level st).nodes.map (fun n => n.id) =
      idsOf (traverseObj E entries parentId level st).nodeId ∧
    (traverseObj E entries parentId level st).edges.map (fun e => e.to_) =
      st.edges.map (fun e => e.to_) ++
        (List.range' st.nodeId
          ((traverseObj E entries parentId level st).nodeId - st.nodeId)).map
          nodeIdStr

/-! ### Per-node invariants -/
/-- The per-node facts of the spec: `expanded` mirrors membership, the
height formula, and `children` nonempty exactly for expanded non-empty
containers. -/
def nodeOK (E : String → Bool) (n : GraphNode) : Prop :=
  n.isExpanded = E n.id ∧
  n.height = 100 +
    (if hasChildrenJSON n.value && E n.id then
      min ((childCount n.value : Int) * 25) 150 else 0) ∧
  (n.children ≠ [] ↔ (hasChildrenJSON n.value = true ∧ E n.id = true))

/-- Registering several children in sequence (one `addChild` per child,
as the sibling visits do). -/
def addChildren (p : String) (ids : List String) (l : List GraphNode) : List GraphNode :=
  ids.foldl (fun acc i => addChild p i acc) l

/-- The parent's node list before the fresh node: unchanged for the root
call, first-match update for a child call. -/
def frontOf (parentId : Option String) (c : Nat) (nodes : List GraphNode) :
    List GraphNode :=
  match parentId with
  | none => nodes
  | some p => addChild p (nodeIdStr c) nodes

/-- Statement of the node-structure facts for `traverse`. -/
def BT (E : String → Bool) (value : JSON) (key : String)
    (parentId : Option String) (level : Nat) (st : TraverseState) : Prop :=
  st.nodes.map (fun n => n.id) = idsOf st.nodeId →
  (∀ p, parentId = some p → p ∈ st.nodes.map (fun n => n.id)) →
  ∃ ids2 news,
    (traverse E value key parentId level st).nodes =
      frontOf parentId st.nodeId st.nodes ++
        ({ mkNode E value key parentId level st.nodeId with children := ids2 } ::
          news) ∧
    ids2.length =
      (if hasChildrenJSON value && E (nodeIdStr st.nodeId) then childCount value
       else 0) ∧
    ∀ n ∈ news, nodeOK E n

/-- Statement of the node-structure facts for `traverseArr`. -/
def BA (E : String → Bool) (items : List JSON) (index : Nat) (parentId : String)
    (level : Nat) (st : TraverseState) : Prop :=
  st.nodes.map (fun n => n.id) = idsOf st.nodeId →
  parentId ∈ st.nodes.map (fun n => n.id) →
  ∃ childIds news,
    (traverseArr E items index parentId level st).nodes =
      addChildren parentId childIds st.nodes ++ news ∧
    childIds.length = items.length ∧
    ∀ n ∈ news, nodeOK E n

/-- Statement of the node-structure facts for `traverseObj`. -/
def BO (E : String → Bool) (entries : List (String × JSON)) (parentId : String)
    (level : Nat) (st : TraverseState) : Prop :=
  st.nodes.map (fun n => n.id) = idsOf st.nodeId →
  parentId ∈ st.nodes.map (fun n => n.id) →
  ∃ childIds news,
    (traverseObj E entries parentId level st).nodes =
      addChildren parentId childIds st.nodes ++ news ∧
    childIds.length = entries.length ∧
    ∀ n ∈ news, nodeOK E n

/-! ### Per-node facts of the whole build -/
/-- The components of a node the layout pass cannot touch. -/
def projT (n : GraphNode) : String × JSON × Bool × Int × List String :=
  (n.id, n.value, n.isExpanded, n.height, n.children)

/-! ### A concrete one-node build, used to instantiate the theorems -/
/-- The positioned root node of `createGraph (fun _ => false) JSON.null`. -/
def nullNode : GraphNode :=
  { id := "node-0", key := "root", value := JSON.null, type := "null",
    x := 50, y := 50, width := 220, height := 100, children := [],
    parent := none, level := 0, isExpanded := false }

/-! ### C5: the layout pass -/
/-- The vertical cursor discipline: each node sits at the current cursor,
which then advances by `node.height + 30`. -/
def yChain : Int → List GraphNode → Prop
  | _, [] => True
  | y, n :: rest => n.y = y ∧ yChain (y + n.height + 30) rest

/-- The nodes read back in the order the layout visits them: levels
ascending, original (traversal) order within a level. -/
def inLayoutOrder (nodes : List GraphNode) : List GraphNode :=
  (layoutOrder nodes).filterMap (fun i => nodes.get? i)

/-! ### C3: toggling a leaf id -/
/-- Membership function of `E ∪ {L}` (`Set.has` after `add`). -/
def withId (E : String → Bool) (L : String) : String → Bool :=
  fun x => x = L || E x

/-- Membership function of `E \ {L}` (`Set.has` after `delete`). -/
def withoutId (E : String → Bool) (L : String) : String → Bool :=
  fun x => !(x = L) && E x

/-- The id/value pairs of the visited nodes, in visit order. -/
def idVals (l : List GraphNode) : List (String × JSON) :=
  l.map (fun n => (n.id, n.value))

/-- Monotonicity statement for `traverse`: a call only appends id/value
pairs. -/
def MT (E : String → Bool) (value : JSON) (key : String)
    (parentId : Option String) (level : Nat) (st : TraverseState) : Prop :=
  ∃ rest, idVals (traverse E value key parentId level st).nodes =
    idVals st.nodes ++ rest

/-- Monotonicity statement for `traverseArr`. -/
def MA (E : String → Bool) (items : List JSON) (index : Nat) (parentId : String)
    (level : Nat) (st : TraverseState) : Prop :=
  ∃ rest, idVals (traverseArr E items index parentId level st).nodes =
    idVals st.nodes ++ rest

/-- Monotonicity statement for `traverseObj`. -/
def MO (E : String → Bool) (entries : List (String × JSON)) (parentId : String)
    (level : Nat) (st : TraverseState) : Prop :=
  ∃ rest, idVals (traverseObj E entries parentId level st).nodes =
    idVals st.nodes ++ rest

/-- Two nodes agreeing on every field, except that `isExpanded` may differ
when the id is `L`. -/
def sameExcept (L : String) (n n' : GraphNode) : Prop :=
  n.id = n'.id ∧ n.key = n'.key ∧ n.value = n'.value ∧ n.type = n'.type ∧
  n.x = n'.x ∧ n.y = n'.y ∧ n.width = n'.width ∧ n.height = n'.height ∧
  n.children = n'.children ∧ n.parent = n'.parent ∧ n.level = n'.level ∧
  (n.id ≠ L → n.isExpanded = n'.isExpanded)

/-- Relatedness statement for `traverse`: builds over expansion sets that
agree except at `L` stay related, provided every node visited with id `L`
is a leaf. -/
def RT (E E' : String → Bool) (L : String) (value : JSON) (key : String)
    (parentId : Option String) (level : Nat) (st : TraverseState) : Prop :=
  ∀ st' : TraverseState,
    (∀ x, x ≠ L → E x = E' x) →
    st.nodeId = st'.nodeId →
    st.edges = st'.edges →
    List.Forall₂ (sameExcept L) st.nodes st'.nodes →
    (∀ pr ∈ idVals (traverse E value key parentId level st).nodes,
      pr.1 = L → hasChildrenJSON pr.2 = false) →
    (traverse E value key parentId level st).nodeId =
      (traverse E' value key parentId level st').nodeId ∧
    (traverse E value key parentId level st).edges =
      (traverse E' value key parentId level st').edges ∧
    List.Forall₂ (sameExcept L)
      (traverse E value key parentId level st).nodes
      (traverse E' value key parentId level st').nodes

/-- Relatedness statement for `traverseArr`. -/
def RA (E E' : String → Bool) (L : String) (items : List JSON) (index : Nat)
    (parentId : String) (level : Nat) (st : TraverseState) : Prop :=
  ∀ st' : TraverseState,
    (∀ x, x ≠ L → E x = E' x) →
    st.nodeId = st'.nodeId →
    st.edges = st'.edges →
    List.Forall₂ (sameExcept L) st.nodes st'.nodes →
    (∀ pr ∈ idVals (traverseArr E items index parentId level st).nodes,
      pr.1 = L → hasChildrenJSON pr.2 = false) →
    (traverseArr E items index parentId level st).nodeId =
      (traverseArr E' items index parentId level st').nodeId ∧
    (traverseArr E items index parentId level st).edges =
      (traverseArr E' items index parentId level st').edges ∧
    List.Forall₂ (sameExcept L)
      (traverseArr E items index parentId level st).nodes
      (traverseArr E' items index parentId level st').nodes

/-- Relatedness statement for `traverseObj`. -/
def RO (E E' : String → Bool) (L : String) (entries : List (String × JSON))
    (parentId : String) (level : Nat) (st : TraverseState) : Prop :=
  ∀ st' : TraverseState,
    (∀ x, x ≠ L → E x = E' x) →
    st.nodeId = st'.nodeId →
    st.edges = st'.edges →
    List.Forall₂ (sameExcept L) st.nodes st'.nodes →
    (∀ pr ∈ idVals (traverseObj E entries parentId level st).nodes,
      pr.1 = L → hasChildrenJSON pr.2 = false) →
    (traverseObj E entries parentId level st).nodeId =
      (traverseObj E' entries parentId level st').nodeId ∧
    (traverseObj E entries parentId level st).edges =
      (traverseObj E' entries parentId level st').edges ∧
    List.Forall₂ (sameExcept L)
      (traverseObj E entries parentId level st).nodes
      (traverseObj E' entries parentId level st').nodes

theorem digitVal_digitChar {n : Nat} (h : n < 10) :
    digitVal (Nat.digitChar n) = n := by
  interval_cases n <;> rfl

theorem toDigitsCore_eq_decDigits :
    ∀ (fuel n : Nat) (ds : List Char), 0 < fuel → n < 10 ^ fuel →
      Nat.toDigitsCore 10 fuel n ds = decDigits n ++ ds := by
  intro fuel
  induction fuel with
  | zero => omega
  | succ f ih =>
      intro n ds _ hlt
      rw [Nat.toDigitsCore]
      by_cases hn : n / 10 = 0
      · have hn10 : n < 10 := by omega
        rw [if_pos hn, decDigits, if_pos hn10, Nat.mod_eq_of_lt hn10]
        rfl
      · have hge : 10 ≤ n := by
          rcases Nat.lt_or_ge n 10 with h | h
          · exact absurd (Nat.div_eq_of_lt h) hn
          · exact h
        have hfpos : 0 < f := by
          by_contra hf
          have hf0 : f = 0 := by omega
          subst hf0
          norm_num at hlt
          omega
        have hdiv : n / 10 < 10 ^ f := by
          rw [Nat.div_lt_iff_lt_mul (by omega)]
          calc n < 10 ^ (f + 1) := hlt
            _ = 10 ^ f * 10 := by rw [Nat.pow_succ]
        have hd : decDigits n = decDigits (n / 10) ++ [Nat.digitChar (n % 10)] := by
          rw [decDigits]
          rw [if_neg (by omega)]
        rw [if_neg hn, ih (n / 10) _ hfpos hdiv, hd]
        simp

theorem decodeAux_decDigits :
    ∀ (n a : Nat), decodeAux a (decDigits n) = a * 10 ^ (decDigits n).length + n := by
  intro n
  induction n using Nat.strong_induction_on with
  | _ n ih =>
      intro a
      by_cases h : n < 10
      · rw [decDigits, if_pos h]
        simp [decodeAux, digitVal_digitChar h]
      · rw [decDigits, if_neg h]
        have hdivlt : n / 10 < n := Nat.div_lt_self (by omega) (by omega)
        simp only [decodeAux, List.foldl_append] at *
        rw [ih (n / 10) hdivlt a]
        have hmod : n % 10 < 10 := Nat.mod_lt _ (by omega)
        simp [digitVal_digitChar hmod, List.length_append, Nat.pow_succ]
        have := Nat.div_add_mod n 10
        ring_nf
        omega

theorem decDigits_injective : Function.Injective decDigits := by
  intro a b h
  have ha := decodeAux_decDigits a 0
  have hb := decodeAux_decDigits b 0
  rw [h] at ha
  omega

theorem Nat_repr_injective : Function.Injective Nat.repr := by
  intro a b h
  have ha : Nat.repr a = (decDigits a).asString := by
    unfold Nat.repr Nat.toDigits
    rw [toDigitsCore_eq_decDigits (a + 1) a [] (by omega)
        (lt_of_lt_of_le (Nat.lt_pow_self (by omega) a)
          (Nat.pow_le_pow_right (by omega) (Nat.le_succ a)))]
    simp
  have hb : Nat.repr b = (decDigits b).asString := by
    unfold Nat.repr Nat.toDigits
    rw [toDigitsCore_eq_decDigits (b + 1) b [] (by omega)
        (lt_of_lt_of_le (Nat.lt_pow_self (by omega) b)
          (Nat.pow_le_pow_right (by omega) (Nat.le_succ b)))]
    simp
  rw [ha, hb, List.asString_inj] at h
  exact decDigits_injective h

theorem nodeIdStr_injective : Function.Injective nodeIdStr := by
  intro a b h
  apply Nat_repr_injective
  apply String.ext
  have := congrArg String.data h
  simpa [nodeIdStr, String.data_append] using this

theorem traverse_unfold (E : String → Bool) (value : JSON) (key : String)
    (parentId : Option String) (level : Nat) (st : TraverseState) :
    traverse E value key parentId level st =
      if hasChildrenJSON value && E (nodeIdStr st.nodeId) then
        match value with
        | JSON.obj kvs =>
            traverseObj E kvs (nodeIdStr st.nodeId) (level + 1)
              (traverseStep E value key parentId level st)
        | JSON.arr vs =>
            traverseArr E vs 0 (nodeIdStr st.nodeId) (level + 1)
              (traverseStep E value key parentId level st)
        | _ => traverseStep E value key parentId level st
      else traverseStep E value key parentId level st := by
  rw [traverse.eq_def]
  rfl

/-! ### Basic lemmas about `addChild` -/
theorem addChild_map {α : Type} (f : GraphNode → α)
    (hf : ∀ (n : GraphNode) (ids : List String), f { n with children := ids } = f n)
    (p c : String) (l : List GraphNode) :
    (addChild p c l).map f = l.map f := by
  induction l with
  | nil => rfl
  | cons n rest ih =>
      by_cases h : n.id = p
      · subst h
        simp [addChild, hf, ih]
      · simp [addChild, h, ih]

theorem addChild_length (p c : String) (l : List GraphNode) :
    (addChild p c l).length = l.length := by
  induction l with
  | nil => rfl
  | cons n rest ih =>
      by_cases h : n.id = p <;> simp [addChild, h, ih]

theorem addChild_append_left {p : String} {l1 : List GraphNode}
    (c : String) (l2 : List GraphNode) (h : ∃ n ∈ l1, n.id = p) :
    addChild p c (l1 ++ l2) = addChild p c l1 ++ l2 := by
  induction l1 with
  | nil => simp at h
  | cons n rest ih =>
      by_cases hn : n.id = p
      · simp [addChild, hn]
      · have h' : ∃ m ∈ rest, m.id = p := by
          rcases h with ⟨m, hm, hmp⟩
          rcases List.mem_cons.mp hm with rfl | hm'
          · exact absurd hmp hn
          · exact ⟨m, hm', hmp⟩
        simp [addChild, hn, ih h']

theorem addChild_append_right {p : String} {l1 : List GraphNode}
    (c : String) (l2 : List GraphNode) (h : ∀ n ∈ l1, n.id ≠ p) :
    addChild p c (l1 ++ l2) = l1 ++ addChild p c l2 := by
  induction l1 with
  | nil => simp
  | cons n rest ih =>
      have hn : n.id ≠ p := h n (List.mem_cons_self n rest)
      simp only [List.cons_append, addChild, if_neg hn]
      have hra : rest.append l2 = rest ++ l2 := rfl
      rw [hra, ih (fun m hm => h m (List.mem_cons_of_mem n hm))]

theorem idsOf_concat (c : Nat) : idsOf (c + 1) = idsOf c ++ [nodeIdStr c] := by
  simp [idsOf, List.range'_1_concat]

theorem idsOf_length (c : Nat) : (idsOf c).length = c := by
  simp [idsOf]

theorem mem_idsOf {s : String} {c : Nat} :
    s ∈ idsOf c ↔ ∃ k, k < c ∧ s = nodeIdStr k := by
  simp only [idsOf, List.mem_map, List.mem_range'_1]
  constructor
  · rintro ⟨k, hk, rfl⟩
    exact ⟨k, by omega, rfl⟩
  · rintro ⟨k, hk, rfl⟩
    exact ⟨k, by omega, rfl⟩

theorem nodeIdStr_not_mem_idsOf {c k : Nat} (h : c ≤ k) :
    nodeIdStr k ∉ idsOf c := by
  rw [mem_idsOf]
  rintro ⟨m, hm, heq⟩
  have := nodeIdStr_injective heq
  omega

theorem range'_map_append (f : Nat → String) (a m n : Nat) :
    (List.range' a m).map f ++ (List.range' (a + m) n).map f =
      (List.range' a (m + n)).map f := by
  rw [← List.map_append, List.range'_append_1, Nat.add_comm n m]

/-! ### Step lemmas -/
theorem traverseStep_nodeId (E : String → Bool) (value : JSON) (key : String)
    (parentId : Option String) (level : Nat) (st : TraverseState) :
    (traverseStep E value key parentId level st).nodeId = st.nodeId + 1 := rfl

theorem traverseStep_map_id (E : String → Bool) (value : JSON) (key : String)
    (parentId : Option String) (level : Nat) (st : TraverseState)
    (h : st.nodes.map (fun n => n.id) = idsOf st.nodeId) :
    (traverseStep E value key parentId level st).nodes.map (fun n => n.id) =
      idsOf (st.nodeId + 1) := by
  have hbase : (st.nodes ++ [mkNode E value key parentId level st.nodeId]).map
      (fun n => n.id) = idsOf (st.nodeId + 1) := by
    simp [h, idsOf_concat, mkNode]
  cases parentId with
  | none => simpa [traverseStep] using hbase
  | some p =>
      simp only [traverseStep]
      rw [addChild_map (fun n => n.id) (fun n ids => rfl)]
      exact hbase

theorem traverseStep_edges_map (E : String → Bool) (value : JSON) (key : String)
    (parentId : Option String) (level : Nat) (st : TraverseState) :
    (traverseStep E value key parentId level st).edges.map (fun e => e.to_) =
      st.edges.map (fun e => e.to_) ++
        (match parentId with
         | none => []
         | some _ => [nodeIdStr st.nodeId]) := by
  cases parentId <;> simp [traverseStep]

theorem map_range'_glue (t a b : Nat) (h1 : t ≤ a) (h2 : a ≤ b) :
    (List.range' t (a - t)).map nodeIdStr ++ (List.range' a (b - a)).map nodeIdStr =
      (List.range' t (b - t)).map nodeIdStr := by
  have e1 : a - t + (b - a) = b - t := by omega
  have h := range'_map_append nodeIdStr t (a - t) (b - a)
  rw [e1] at h
  have e2 : t + (a - t) = a := by omega
  rw [e2] at h
  exact h

theorem shapeT_step (E : String → Bool) (value : JSON) (key : String)
    (parentId : Option String) (level : Nat) (st : TraverseState)
    (h : st.nodes.map (fun n => n.id) = idsOf st.nodeId) :
    st.nodeId < (traverseStep E value key parentId level st).nodeId ∧
    (traverseStep E value key parentId level st).nodes.map (fun n => n.id) =
      idsOf (traverseStep E value key parentId level st).nodeId ∧
    (traverseStep E value key parentId level st).edges.map (fun e => e.to_) =
      st.edges.map (fun e => e.to_) ++
        (List.range' (tgtStart parentId st.nodeId)
          ((traverseStep E value key parentId level st).nodeId -
            tgtStart parentId st.nodeId)).map nodeIdStr := by
  refine ⟨by simp [traverseStep_nodeId],
          by rw [traverseStep_nodeId]; exact traverseStep_map_id _ _ _ _ _ _ h, ?_⟩
  rw [traverseStep_edges_map, traverseStep_nodeId]
  cases parentId with
  | none => simp [tgtStart]
  | some p =>
      have e1 : st.nodeId + 1 - tgtStart (some p) st.nodeId = 1 := by
        simp [tgtStart]
      rw [e1]
      simp [tgtStart]

theorem hasChildren_eq_false_of_not_container (value : JSON)
    (h1 : ∀ kvs, value = JSON.obj kvs → False)
    (h2 : ∀ vs, value = JSON.arr vs → False) :
    hasChildrenJSON value = false := by
  cases value with
  | obj kvs => exact absurd rfl (fun h => h1 kvs h)
  | arr vs => exact absurd rfl (fun h => h2 vs h)
  | str s => rfl
  | num n => rfl
  | bool b => rfl
  | null => rfl

theorem shape_all (E : String → Bool) :
    (∀ (value : JSON) (key : String) (parentId : Option String) (level : Nat)
        (st : TraverseState), ShapeT E value key parentId level st) ∧
    (∀ (items : List JSON) (index : Nat) (parentId : String) (level : Nat)
        (st : TraverseState), ShapeA E items index parentId level st) ∧
    (∀ (entries : List (String × JSON)) (parentId : String) (level : Nat)
        (st : TraverseState), ShapeO E entries parentId level st) := by
  refine traverse.mutual_induct E
    (fun value key parentId level st => ShapeT E value key parentId level st)
    (fun items index parentId level st => ShapeA E items index parentId level st)
    (fun entries parentId level st => ShapeO E entries parentId level st)
    ?_ ?_ ?_ ?_ ?_ ?_ ?_ ?_
  · -- object with children, expanded
    intro key parentId level st currentId isExpanded edges2 kvs hasChildren
      extraHeight node nodes1 nodes2 st1 hcond ih
    intro h
    have hcond' : (hasChildrenJSON (JSON.obj kvs) && E (nodeIdStr st.nodeId)) = true := hcond
    have htr : traverse E (JSON.obj kvs) key parentId level st =
        traverseObj E kvs (nodeIdStr st.nodeId) (level + 1)
          (traverseStep E (JSON.obj kvs) key parentId level st) := by
      rw [traverse_unfold, if_pos hcond']
    have ih' : ShapeO E kvs (nodeIdStr st.nodeId) (level + 1)
        (traverseStep E (JSON.obj kvs) key parentId level st) := ih
    obtain ⟨h1, h2, h3⟩ := shapeT_step E (JSON.obj kvs) key parentId level st h
    obtain ⟨h4, h5, h6⟩ := ih' h2
    rw [htr]
    refine ⟨by omega, h5, ?_⟩
    rw [h6, h3, List.append_assoc]
    congr 1
    rw [traverseStep_nodeId] at *
    have ht : tgtStart parentId st.nodeId ≤ st.nodeId + 1 := by
      cases parentId <;> simp [tgtStart]
    exact map_range'_glue _ _ _ ht h4
  · -- array with children, expanded
    intro key parentId level st currentId isExpanded edges2 vs hasChildren
      extraHeight node nodes1 nodes2 st1 hcond ih
    intro h
    have hcond' : (hasChildrenJSON (JSON.arr vs) && E (nodeIdStr st.nodeId)) = true := hcond
    have htr : traverse E (JSON.arr vs) key parentId level st =
        traverseArr E vs 0 (nodeIdStr st.nodeId) (level + 1)
          (traverseStep E (JSON.arr vs) key parentId level st) := by
      rw [traverse_unfold, if_pos hcond']
    have ih' : ShapeA E vs 0 (nodeIdStr st.nodeId) (level + 1)
        (traverseStep E (JSON.arr vs) key parentId level st) := ih
    obtain ⟨h1, h2, h3⟩ := shapeT_step E (JSON.arr vs) key parentId level st h
    obtain ⟨h4, h5, h6⟩ := ih' h2
    rw [htr]
    refine ⟨by omega, h5, ?_⟩
    rw [h6, h3, List.append_assoc]
    congr 1
    rw [traverseStep_nodeId] at *
    have ht : tgtStart parentId st.nodeId ≤ st.nodeId + 1 := by
      cases parentId <;> simp [tgtStart]
    exact map_range'_glue _ _ _ ht h4
  · -- expanded but not a container: impossible
    intro value key parentId level st currentId isExpanded hasChildren hcond
      hnotobj hnotarr
    intro h
    exfalso
    have hcond' : (hasChildrenJSON value && E (nodeIdStr st.nodeId)) = true := hcond
    rw [hasChildren_eq_false_of_not_container value hnotobj hnotarr] at hcond'
    simp at hcond'
  · -- collapsed or no children
    intro value key parentId level st currentId isExpanded hasChildren hcond
    intro h
    have hcond' : ¬(hasChildrenJSON value && E (nodeIdStr st.nodeId)) = true := hcond
    have htr : traverse E value key parentId level st =
        traverseStep E value key parentId level st := by
      rw [traverse_unfold, if_neg hcond']
    rw [htr]
    exact shapeT_step E value key parentId level st h
  · -- traverseArr []
    intro index parentId level st
    intro h
    have htr : traverseArr E [] index parentId level st = st := by
      rw [traverseArr.eq_def]
    rw [htr]
    exact ⟨le_refl _, h, by simp⟩
  · -- traverseArr cons
    intro index parentId level st v rest iht ihr
    intro h
    have htr : traverseArr E (v :: rest) index parentId level st =
        traverseArr E rest (index + 1) parentId level
          (traverse E v ("[" ++ Nat.repr index ++ "]") (some parentId) level st) := by
      rw [traverseArr.eq_def]
    obtain ⟨h1, h2, h3⟩ := iht h
    obtain ⟨h4, h5, h6⟩ := ihr h2
    simp only [tgtStart] at h3
    rw [htr]
    refine ⟨by omega, h5, ?_⟩
    rw [h6, h3, List.append_assoc]
    congr 1
    exact map_range'_glue _ _ _ (by omega) h4
  · -- traverseObj []
    intro parentId level st
    intro h
    have htr : traverseObj E [] parentId level st = st := by
      rw [traverseObj.eq_def]
    rw [htr]
    exact ⟨le_refl _, h, by simp⟩
  · -- traverseObj cons
    intro parentId level st k v rest iht ihr
    intro h
    have htr : traverseObj E ((k, v) :: rest) parentId level st =
        traverseObj E rest parentId level
          (traverse E v k (some parentId) level st) := by
      rw [traverseObj.eq_def]
    obtain ⟨h1, h2, h3⟩ := iht h
    obtain ⟨h4, h5, h6⟩ := ihr h2
    simp only [tgtStart] at h3
    rw [htr]
    refine ⟨by omega, h5, ?_⟩
    rw [h6, h3, List.append_assoc]
    congr 1
    exact map_range'_glue _ _ _ (by omega) h4

/-! ### The layout pass only touches coordinates -/
theorem set_same {α : Type} :
    ∀ (l : List α) (i : Nat) (a : α), l.get? i = some a → l.set i a = l
  | [], _, _, h => by simp at h
  | x :: rest, 0, a, h => by
      have h' : some x = some a := h
      injection h' with hx
      rw [← hx]
      rfl
  | x :: rest, i + 1, a, h => by
      have h' : rest.get? i = some a := h
      show x :: rest.set i a = x :: rest
      rw [set_same rest i a h']

theorem placeAll_map {α : Type} (f : GraphNode → α)
    (hf : ∀ (n : GraphNode) (a b : Int), f { n with x := a, y := b } = f n) :
    ∀ (order : List Nat) (y : Int) (nodes : List GraphNode),
      (placeAll order y nodes).map f = nodes.map f := by
  intro order
  induction order with
  | nil => intro y nodes; rfl
  | cons i rest ih =>
      intro y nodes
      simp only [placeAll]
      cases hget : nodes.get? i with
      | none => exact ih y nodes
      | some n =>
          show (placeAll rest (y + n.height + 30)
            (nodes.set i { n with x := (n.level : Int) * 300 + 50, y := y })).map f =
              nodes.map f
          rw [ih, List.map_set, hf,
            set_same (nodes.map f) i (f n) (by rw [List.get?_map, hget]; rfl)]

theorem positionNodes_map {α : Type} (f : GraphNode → α)
    (hf : ∀ (n : GraphNode) (a b : Int), f { n with x := a, y := b } = f n)
    (nodes : List GraphNode) :
    (positionNodes nodes).map f = nodes.map f :=
  placeAll_map f hf (layoutOrder nodes) 50 nodes

theorem positionNodes_length (nodes : List GraphNode) :
    (positionNodes nodes).length = nodes.length := by
  have h := positionNodes_map (fun _ => ()) (fun _ _ _ => rfl) nodes
  have h1 := congrArg List.length h
  simpa using h1

/-! ### Shape of the whole build -/
theorem createGraph_shape (E : String → Bool) (parsed : JSON) :
    0 < (createGraph E parsed).nodes.length ∧
    (createGraph E parsed).nodes.map (fun n => n.id) =
      idsOf (createGraph E parsed).nodes.length ∧
    (createGraph E parsed).edges.map (fun e => e.to_) =
      (List.range' 1 ((createGraph E parsed).nodes.length - 1)).map nodeIdStr := by
  have hT := (shape_all E).1 parsed "root" none 0 ⟨0, [], []⟩
  obtain ⟨h1, h2, h3⟩ := hT rfl
  have hmap : (createGraph E parsed).nodes.map (fun n => n.id) =
      (traverse E parsed "root" none 0 ⟨0, [], []⟩).nodes.map (fun n => n.id) := by
    simp only [createGraph]
    exact positionNodes_map (fun n => n.id) (fun n a b => rfl) _
  have hlen : (createGraph E parsed).nodes.length =
      (traverse E parsed "root" none 0 ⟨0, [], []⟩).nodeId := by
    have := congrArg List.length hmap
    simp only [List.length_map] at this
    rw [this, ← List.length_map _ (fun (n : GraphNode) => n.id), h2, idsOf_length]
  refine ⟨by omega, ?_, ?_⟩
  · rw [hmap, h2, hlen]
  · have hedges : (createGraph E parsed).edges =
        (traverse E parsed "root" none 0 ⟨0, [], []⟩).edges := rfl
    rw [hedges, h3, hlen]
    simp [tgtStart]

/-- C1: for every parsed document and expansion set, the built graph is a
tree: `nodes.length = edges.length + 1`, the edge targets are exactly the
non-root node ids in order (so the root has no incoming edge and every
other node exactly one), and the node ids are pairwise distinct. -/
theorem C1_tree_property (E : String → Bool) (parsed : JSON) :
    (createGraph E parsed).nodes.length = (createGraph E parsed).edges.length + 1 ∧
    (createGraph E parsed).edges.map (fun e => e.to_) =
      ((createGraph E parsed).nodes.map (fun n => n.id)).tail ∧
    ((createGraph E parsed).nodes.map (fun n => n.id)).Nodup := by
  obtain ⟨h1, h2, h3⟩ := createGraph_shape E parsed
  have hL : (createGraph E parsed).nodes.length =
      ((createGraph E parsed).nodes.length - 1) + 1 := by omega
  have htail : (idsOf (createGraph E parsed).nodes.length).tail =
      (List.range' 1 ((createGraph E parsed).nodes.length - 1)).map nodeIdStr := by
    rw [idsOf, hL, List.range'_succ]
    simp
  refine ⟨?_, ?_, ?_⟩
  · have := congrArg List.length h3
    simp only [List.length_map, List.length_range'] at this
    omega
  · rw [h3, h2, htail]
  · rw [h2, idsOf]
    exact (List.nodup_range' ..).map nodeIdStr_injective

/-- C10: within one build the node ids are `node-k` for `k` assigned
consecutively from 0 in depth-first pre-order (the order of the node
list), hence pairwise distinct, and the root node has id `node-0` (which
is what seeding the expansion set with `node-0` refers to). -/
theorem C10_ids_preorder (E : String → Bool) (parsed : JSON) :
    (createGraph E parsed).nodes.map (fun n => n.id) =
      (List.range' 0 (createGraph E parsed).nodes.length).map nodeIdStr ∧
    ((createGraph E parsed).nodes.map (fun n => n.id)).Nodup ∧
    ((createGraph E parsed).nodes.map (fun n => n.id)).head? = some "node-0" := by
  obtain ⟨h1, h2, h3⟩ := createGraph_shape E parsed
  refine ⟨h2, ?_, ?_⟩
  · rw [h2, idsOf]
    exact (List.nodup_range' ..).map nodeIdStr_injective
  · rw [h2, idsOf]
    have hL : (createGraph E parsed).nodes.length =
        ((createGraph E parsed).nodes.length - 1) + 1 := by omega
    rw [hL, List.range'_succ]
    simp
    decide

theorem hasChildren_iff_childCount (v : JSON) :
    hasChildrenJSON v = true ↔ childCount v ≠ 0 := by
  cases v <;> simp [hasChildrenJSON, childCount, List.isEmpty_iff, List.length_eq_zero]

theorem addChildren_nil (p : String) (l : List GraphNode) :
    addChildren p [] l = l := rfl

theorem addChildren_cons (p i : String) (ids : List String) (l : List GraphNode) :
    addChildren p (i :: ids) l = addChildren p ids (addChild p i l) := rfl

theorem exists_id_of_mem_map {p : String} {l : List GraphNode}
    (h : p ∈ l.map (fun n => n.id)) : ∃ n ∈ l, n.id = p := by
  rcases List.mem_map.mp h with ⟨n, hn, hid⟩
  exact ⟨n, hn, hid⟩

theorem addChildren_append_left {p : String} {l1 : List GraphNode}
    (ids : List String) (l2 : List GraphNode) (h : ∃ n ∈ l1, n.id = p) :
    addChildren p ids (l1 ++ l2) = addChildren p ids l1 ++ l2 := by
  induction ids generalizing l1 with
  | nil => rfl
  | cons i rest ih =>
      rw [addChildren_cons, addChildren_cons,
        addChild_append_left i l2 h]
      apply ih
      rcases h with ⟨n, hn, hid⟩
      have hmem : p ∈ (addChild p i l1).map (fun n => n.id) := by
        rw [addChild_map (fun n => n.id) (fun n ids => rfl)]
        exact List.mem_map.mpr ⟨n, hn, hid⟩
      exact exists_id_of_mem_map hmem

theorem addChild_push {p : String} {l1 : List GraphNode} (i : String)
    (m : GraphNode) (hm : m.id = p) (h : ∀ n ∈ l1, n.id ≠ p) :
    addChild p i (l1 ++ [m]) = l1 ++ [{ m with children := m.children ++ [i] }] := by
  rw [addChild_append_right i [m] h]
  simp [addChild, hm]

theorem addChildren_push {p : String} (ids : List String) {l1 : List GraphNode}
    (m : GraphNode) (hm : m.id = p) (h : ∀ n ∈ l1, n.id ≠ p) :
    addChildren p ids (l1 ++ [m]) =
      l1 ++ [{ m with children := m.children ++ ids }] := by
  induction ids generalizing m with
  | nil => simp [addChildren_nil]
  | cons i rest ih =>
      rw [addChildren_cons, addChild_push i m hm h,
        ih { m with children := m.children ++ [i] } hm]
      simp

theorem selfNode_ok (E : String → Bool) (value : JSON) (key : String)
    (parentId : Option String) (level : Nat) (c : Nat) (ids2 : List String)
    (h : ids2.length =
      if hasChildrenJSON value && E (nodeIdStr c) then childCount value else 0) :
    nodeOK E { mkNode E value key parentId level c with children := ids2 } := by
  refine ⟨rfl, rfl, ?_⟩
  show ids2 ≠ [] ↔ (hasChildrenJSON value = true ∧ E (nodeIdStr c) = true)
  by_cases hc : (hasChildrenJSON value && E (nodeIdStr c)) = true
  · rw [if_pos hc] at h
    rcases Bool.and_eq_true .. |>.mp hc with ⟨hch, hexp⟩
    have hcc : childCount value ≠ 0 := (hasChildren_iff_childCount value).mp hch
    constructor
    · intro _
      exact ⟨hch, hexp⟩
    · intro _
      intro hnil
      rw [hnil] at h
      simp at h
      omega
  · rw [if_neg hc] at h
    have hnil : ids2 = [] := List.length_eq_zero.mp h
    constructor
    · intro hne
      exact absurd hnil hne
    · rintro ⟨hch, hexp⟩
      exact absurd (by rw [hch, hexp]; rfl) hc

theorem traverseStep_nodes_none (E : String → Bool) (value : JSON) (key : String)
    (level : Nat) (st : TraverseState) :
    (traverseStep E value key none level st).nodes =
      st.nodes ++ [mkNode E value key none level st.nodeId] := rfl

theorem traverseStep_nodes_some (E : String → Bool) (value : JSON) (key : String)
    (p : String) (level : Nat) (st : TraverseState)
    (h : ∃ n ∈ st.nodes, n.id = p) :
    (traverseStep E value key (some p) level st).nodes =
      addChild p (nodeIdStr st.nodeId) st.nodes ++
        [mkNode E value key (some p) level st.nodeId] := by
  show addChild p (nodeIdStr st.nodeId)
      (st.nodes ++ [mkNode E value key (some p) level st.nodeId]) = _
  exact addChild_append_left _ _ h

theorem traverseStep_nodes (E : String → Bool) (value : JSON) (key : String)
    (parentId : Option String) (level : Nat) (st : TraverseState)
    (h : ∀ p, parentId = some p → ∃ n ∈ st.nodes, n.id = p) :
    (traverseStep E value key parentId level st).nodes =
      frontOf parentId st.nodeId st.nodes ++
        [mkNode E value key parentId level st.nodeId] := by
  cases parentId with
  | none => rfl
  | some p => exact traverseStep_nodes_some E value key p level st (h p rfl)

theorem frontOf_map {α : Type} (f : GraphNode → α)
    (hf : ∀ (n : GraphNode) (ids : List String), f { n with children := ids } = f n)
    (parentId : Option String) (c : Nat) (nodes : List GraphNode) :
    (frontOf parentId c nodes).map f = nodes.map f := by
  cases parentId with
  | none => rfl
  | some p => exact addChild_map f hf p (nodeIdStr c) nodes

theorem mem_idsOf_mono {p : String} {c c' : Nat} (h : c ≤ c') (hp : p ∈ idsOf c) :
    p ∈ idsOf c' := by
  rw [mem_idsOf] at *
  rcases hp with ⟨k, hk, rfl⟩
  exact ⟨k, by omega, rfl⟩

theorem b_all (E : String → Bool) :
    (∀ (value : JSON) (key : String) (parentId : Option String) (level : Nat)
        (st : TraverseState), BT E value key parentId level st) ∧
    (∀ (items : List JSON) (index : Nat) (parentId : String) (level : Nat)
        (st : TraverseState), BA E items index parentId level st) ∧
    (∀ (entries : List (String × JSON)) (parentId : String) (level : Nat)
        (st : TraverseState), BO E entries parentId level st) := by
  refine traverse.mutual_induct E
    (fun value key parentId level st => BT E value key parentId level st)
    (fun items index parentId level st => BA E items index parentId level st)
    (fun entries parentId level st => BO E entries parentId level st)
    ?_ ?_ ?_ ?_ ?_ ?_ ?_ ?_
  · -- object with children, expanded
    intro key parentId level st currentId isExpanded edges2 kvs hasChildren
      extraHeight node nodes1 nodes2 st1 hcond ih
    intro hids hpid
    have hcond' : (hasChildrenJSON (JSON.obj kvs) && E (nodeIdStr st.nodeId)) = true :=
      hcond
    have hpid' : ∀ p, parentId = some p → ∃ n ∈ st.nodes, n.id = p :=
      fun p hp => exists_id_of_mem_map (hpid p hp)
    have hstep_nodes := traverseStep_nodes E (JSON.obj kvs) key parentId level st hpid'
    have hstep_ids := traverseStep_map_id E (JSON.obj kvs) key parentId level st hids
    have htr : traverse E (JSON.obj kvs) key parentId level st =
        traverseObj E kvs (nodeIdStr st.nodeId) (level + 1)
          (traverseStep E (JSON.obj kvs) key parentId level st) := by
      rw [traverse_unfold, if_pos hcond']
    have ih' : BO E kvs (nodeIdStr st.nodeId) (level + 1)
        (traverseStep E (JSON.obj kvs) key parentId level st) := ih
    have hmemcur : nodeIdStr st.nodeId ∈
        (traverseStep E (JSON.obj kvs) key parentId level st).nodes.map
          (fun n => n.id) := by
      rw [hstep_ids, mem_idsOf]
      exact ⟨st.nodeId, by omega, rfl⟩
    obtain ⟨childIds, news, hn, hlen, hok⟩ :=
      ih' (by rw [traverseStep_nodeId]; exact hstep_ids) hmemcur
    rw [hstep_nodes] at hn
    have hfront_fresh : ∀ n ∈ frontOf parentId st.nodeId st.nodes,
        n.id ≠ nodeIdStr st.nodeId := by
      intro n hn' heq
      have hm : n.id ∈ (frontOf parentId st.nodeId st.nodes).map (fun n => n.id) :=
        List.mem_map_of_mem _ hn'
      rw [frontOf_map (fun n => n.id) (fun _ _ => rfl), hids] at hm
      exact nodeIdStr_not_mem_idsOf (le_refl _) (heq ▸ hm)
    rw [addChildren_push childIds
      (mkNode E (JSON.obj kvs) key parentId level st.nodeId)
      (show (mkNode E (JSON.obj kvs) key parentId level st.nodeId).id =
        nodeIdStr st.nodeId from rfl) hfront_fresh] at hn
    refine ⟨childIds, news, ?_, ?_, hok⟩
    · rw [htr, hn]
      have hch : (mkNode E (JSON.obj kvs) key parentId level st.nodeId).children =
          [] := rfl
      rw [hch]
      simp
    · rw [if_pos hcond']
      exact hlen
  · -- array with children, expanded
    intro key parentId level st currentId isExpanded edges2 vs hasChildren
      extraHeight node nodes1 nodes2 st1 hcond ih
    intro hids hpid
    have hcond' : (hasChildrenJSON (JSON.arr vs) && E (nodeIdStr st.nodeId)) = true :=
      hcond
    have hpid' : ∀ p, parentId = some p → ∃ n ∈ st.nodes, n.id = p :=
      fun p hp => exists_id_of_mem_map (hpid p hp)
    have hstep_nodes := traverseStep_nodes E (JSON.arr vs) key parentId level st hpid'
    have hstep_ids := traverseStep_map_id E (JSON.arr vs) key parentId level st hids
    have htr : traverse E (JSON.arr vs) key parentId level st =
        traverseArr E vs 0 (nodeIdStr st.nodeId) (level + 1)
          (traverseStep E (JSON.arr vs) key parentId level st) := by
      rw [traverse_unfold, if_pos hcond']
    have ih' : BA E vs 0 (nodeIdStr st.nodeId) (level + 1)
        (traverseStep E (JSON.arr vs) key parentId level st) := ih
    have hmemcur : nodeIdStr st.nodeId ∈
        (traverseStep E (JSON.arr vs) key parentId level st).nodes.map
          (fun n => n.id) := by
      rw [hstep_ids, mem_idsOf]
      exact ⟨st.nodeId, by omega, rfl⟩
    obtain ⟨childIds, news, hn, hlen, hok⟩ :=
      ih' (by rw [traverseStep_nodeId]; exact hstep_ids) hmemcur
    rw [hstep_nodes] at hn
    have hfront_fresh : ∀ n ∈ frontOf parentId st.nodeId st.nodes,
        n.id ≠ nodeIdStr st.nodeId := by
      intro n hn' heq
      have hm : n.id ∈ (frontOf parentId st.nodeId st.nodes).map (fun n => n.id) :=
        List.mem_map_of_mem _ hn'
      rw [frontOf_map (fun n => n.id) (fun _ _ => rfl), hids] at hm
      exact nodeIdStr_not_mem_idsOf (le_refl _) (heq ▸ hm)
    rw [addChildren_push childIds
      (mkNode E (JSON.arr vs) key parentId level st.nodeId)
      (show (mkNode E (JSON.arr vs) key parentId level st.nodeId).id =
        nodeIdStr st.nodeId from rfl) hfront_fresh] at hn
    refine ⟨childIds, news, ?_, ?_, hok⟩
    · rw [htr, hn]
      have hch : (mkNode E (JSON.arr vs) key parentId level st.nodeId).children =
          [] := rfl
      rw [hch]
      simp
    · rw [if_pos hcond']
      exact hlen
  · -- expanded but not a container: impossible
    intro value key parentId level st currentId isExpanded hasChildren hcond
      hnotobj hnotarr
    intro hids hpid
    exfalso
    have hcond' : (hasChildrenJSON value && E (nodeIdStr st.nodeId)) = true := hcond
    rw [hasChildren_eq_false_of_not_container value hnotobj hnotarr] at hcond'
    simp at hcond'
  · -- collapsed or no children
    intro value key parentId level st currentId isExpanded hasChildren hcond
    intro hids hpid
    have hcond' : ¬(hasChildrenJSON value && E (nodeIdStr st.nodeId)) = true := hcond
    have hpid' : ∀ p, parentId = some p → ∃ n ∈ st.nodes, n.id = p :=
      fun p hp => exists_id_of_mem_map (hpid p hp)
    have htr : traverse E value key parentId level st =
        traverseStep E value key parentId level st := by
      rw [traverse_unfold, if_neg hcond']
    refine ⟨[], [], ?_, ?_, by intro n h; cases h⟩
    · rw [htr, traverseStep_nodes E value key parentId level st hpid']
      rfl
    · rw [if_neg hcond']
      rfl
  · -- traverseArr []
    intro index parentId level st
    intro hids hpid
    have htr : traverseArr E [] index parentId level st = st := by
      rw [traverseArr.eq_def]
    refine ⟨[], [], ?_, rfl, by intro n h; cases h⟩
    rw [htr, addChildren_nil]
    simp
  · -- traverseArr cons
    intro index parentId level st v rest iht ihr
    intro hids hpid
    obtain ⟨ids2, news1, hn1, hlen1, hok1⟩ :=
      iht hids (fun p hp => by injection hp with h; rw [← h]; exact hpid)
    obtain ⟨hc1, hids1, _⟩ :=
      (shape_all E).1 v ("[" ++ Nat.repr index ++ "]") (some parentId) level st hids
    obtain ⟨restIds, news2, hn2, hlen2, hok2⟩ :=
      ihr hids1 (by rw [hids1]; exact mem_idsOf_mono (le_of_lt hc1) (hids ▸ hpid))
    have htr : traverseArr E (v :: rest) index parentId level st =
        traverseArr E rest (index + 1) parentId level
          (traverse E v ("[" ++ Nat.repr index ++ "]") (some parentId) level st) := by
      rw [traverseArr.eq_def]
    have hex : ∃ n ∈ frontOf (some parentId) st.nodeId st.nodes, n.id = parentId := by
      apply exists_id_of_mem_map
      rw [frontOf_map (fun n => n.id) (fun _ _ => rfl)]
      exact hpid
    rw [hn1, addChildren_append_left restIds _ hex] at hn2
    refine ⟨nodeIdStr st.nodeId :: restIds,
      { mkNode E v ("[" ++ Nat.repr index ++ "]") (some parentId) level st.nodeId
          with children := ids2 } :: (news1 ++ news2), ?_, ?_, ?_⟩
    · rw [htr, hn2, addChildren_cons]
      show addChildren parentId restIds
          (addChild parentId (nodeIdStr st.nodeId) st.nodes) ++ _ ++ _ =
        addChildren parentId restIds
          (addChild parentId (nodeIdStr st.nodeId) st.nodes) ++ _
      simp
    · simp [hlen2]
    · intro n hn
      rcases List.mem_cons.mp hn with rfl | hn'
      · exact selfNode_ok E v _ (some parentId) level st.nodeId ids2 hlen1
      · rcases List.mem_append.mp hn' with h1 | h2
        · exact hok1 n h1
        · exact hok2 n h2
  · -- traverseObj []
    intro parentId level st
    intro hids hpid
    have htr : traverseObj E [] parentId level st = st := by
      rw [traverseObj.eq_def]
    refine ⟨[], [], ?_, rfl, by intro n h; cases h⟩
    rw [htr, addChildren_nil]
    simp
  · -- traverseObj cons
    intro parentId level st k v rest iht ihr
    intro hids hpid
    obtain ⟨ids2, news1, hn1, hlen1, hok1⟩ :=
      iht hids (fun p hp => by injection hp with h; rw [← h]; exact hpid)
    obtain ⟨hc1, hids1, _⟩ :=
      (shape_all E).1 v k (some parentId) level st hids
    obtain ⟨restIds, news2, hn2, hlen2, hok2⟩ :=
      ihr hids1 (by rw [hids1]; exact mem_idsOf_mono (le_of_lt hc1) (hids ▸ hpid))
    have htr : traverseObj E ((k, v) :: rest) parentId level st =
        traverseObj E rest parentId level
          (traverse E v k (some parentId) level st) := by
      rw [traverseObj.eq_def]
    have hex : ∃ n ∈ frontOf (some parentId) st.nodeId st.nodes, n.id = parentId := by
      apply exists_id_of_mem_map
      rw [frontOf_map (fun n => n.id) (fun _ _ => rfl)]
      exact hpid
    rw [hn1, addChildren_append_left restIds _ hex] at hn2
    refine ⟨nodeIdStr st.nodeId :: restIds,
      { mkNode E v k (some parentId) level st.nodeId with children := ids2 } ::
        (news1 ++ news2), ?_, ?_, ?_⟩
    · rw [htr, hn2, addChildren_cons]
      show addChildren parentId restIds
          (addChild parentId (nodeIdStr st.nodeId) st.nodes) ++ _ ++ _ =
        addChildren parentId restIds
          (addChild parentId (nodeIdStr st.nodeId) st.nodes) ++ _
      simp
    · simp [hlen2]
    · intro n hn
      rcases List.mem_cons.mp hn with rfl | hn'
      · exact selfNode_ok E v k (some parentId) level st.nodeId ids2 hlen1
      · rcases List.mem_append.mp hn' with h1 | h2
        · exact hok1 n h1
        · exact hok2 n h2

theorem nodeOK_of_projT_eq {E : String → Bool} {n n' : GraphNode}
    (h : projT n = projT n') (hok : nodeOK E n) : nodeOK E n' := by
  simp only [projT, Prod.mk.injEq] at h
  obtain ⟨hid, hval, hexp, hh, hch⟩ := h
  unfold nodeOK at *
  rw [← hid, ← hval, ← hexp, ← hh, ← hch]
  exact hok

theorem createGraph_nodeOK (E : String → Bool) (parsed : JSON) :
    ∀ n ∈ (createGraph E parsed).nodes, nodeOK E n := by
  have hmap : (createGraph E parsed).nodes.map projT =
      (traverse E parsed "root" none 0 ⟨0, [], []⟩).nodes.map projT :=
    positionNodes_map projT (fun n a b => rfl) _
  have hpre : ∀ n ∈ (traverse E parsed "root" none 0 ⟨0, [], []⟩).nodes,
      nodeOK E n := by
    obtain ⟨ids2, news, hn, hlen, hok⟩ :=
      (b_all E).1 parsed "root" none 0 ⟨0, [], []⟩ rfl
        (fun p hp => Option.noConfusion hp)
    have hfr : frontOf none (0 : Nat) ([] : List GraphNode) = [] := rfl
    rw [hfr, List.nil_append] at hn
    rw [hn]
    intro n hmem
    rcases List.mem_cons.mp hmem with rfl | hmem'
    · exact selfNode_ok E parsed "root" none 0 0 ids2 hlen
    · exact hok n hmem'
  intro n' hmem'
  have hm : projT n' ∈ (createGraph E parsed).nodes.map projT :=
    List.mem_map_of_mem _ hmem'
  rw [hmap] at hm
  rcases List.mem_map.mp hm with ⟨n, hn, heq⟩
  exact nodeOK_of_projT_eq heq (hpre n hn)

/-- C9: every node's `isExpanded` equals the membership of its id in the
expansion set at build time, for leaves and containers alike. -/
theorem C9_expanded_mirrors (E : String → Bool) (parsed : JSON) :
    ∀ n ∈ (createGraph E parsed).nodes, n.isExpanded = E n.id :=
  fun n hn => (createGraph_nodeOK E parsed n hn).1

/-- C6: every node's height is the base height 100 plus, exactly when the
node is expanded and has children, `min(childCount * 25, 150)`. -/
theorem C6_height_formula (E : String → Bool) (parsed : JSON) :
    ∀ n ∈ (createGraph E parsed).nodes,
      n.height = 100 +
        (if hasChildrenJSON n.value && n.isExpanded then
          min ((childCount n.value : Int) * 25) 150 else 0) := by
  intro n hn
  have h := createGraph_nodeOK E parsed n hn
  rw [h.1]
  exact h.2.1

/-- C2: a node has a nonempty `children` list iff its value is a non-empty
object or array and its id is in the expansion set; an empty container is
never given children. -/
theorem C2_children_iff (E : String → Bool) (parsed : JSON) :
    ∀ n ∈ (createGraph E parsed).nodes,
      (0 < n.children.length ↔
        (hasChildrenJSON n.value = true ∧ E n.id = true)) := by
  intro n hn
  have h := (createGraph_nodeOK E parsed n hn).2.2
  rw [← h]
  rw [List.length_pos]

/-- C4: with every node collapsed (`E = ∅`) the build of any document
yields exactly one node and no edges. -/
theorem C4_all_collapsed (parsed : JSON) :
    (createGraph (fun _ => false) parsed).nodes.length = 1 ∧
    (createGraph (fun _ => false) parsed).edges = [] := by
  have htr : traverse (fun _ => false) parsed "root" none 0 ⟨0, [], []⟩ =
      traverseStep (fun _ => false) parsed "root" none 0 ⟨0, [], []⟩ := by
    rw [traverse_unfold]
    simp
  constructor
  · show (positionNodes
      (traverse (fun _ => false) parsed "root" none 0 ⟨0, [], []⟩).nodes).length = 1
    rw [positionNodes_length, htr]
    rfl
  · show (traverse (fun _ => false) parsed "root" none 0 ⟨0, [], []⟩).edges = []
    rw [htr]
    rfl

theorem nullBuild_nodes :
    (createGraph (fun _ => false) JSON.null).nodes = [nullNode] := by
  have htr : traverse (fun _ => false) JSON.null "root" none 0 ⟨0, [], []⟩ =
      traverseStep (fun _ => false) JSON.null "root" none 0 ⟨0, [], []⟩ := by
    rw [traverse_unfold]
    rfl
  show positionNodes
      (traverse (fun _ => false) JSON.null "root" none 0 ⟨0, [], []⟩).nodes = _
  rw [htr]
  rfl

theorem nullNode_mem :
    nullNode ∈ (createGraph (fun _ => false) JSON.null).nodes := by
  rw [nullBuild_nodes]
  exact List.mem_singleton.mpr rfl

theorem C9_witness :
    nullNode.isExpanded = (fun _ => false) nullNode.id :=
  C9_expanded_mirrors (fun _ => false) JSON.null nullNode nullNode_mem

theorem C6_witness :
    nullNode.height = 100 +
      (if hasChildrenJSON nullNode.value && nullNode.isExpanded then
        min ((childCount nullNode.value : Int) * 25) 150 else 0) :=
  C6_height_formula (fun _ => false) JSON.null nullNode nullNode_mem

theorem C2_witness :
    0 < nullNode.children.length ↔
      (hasChildrenJSON nullNode.value = true ∧ (fun _ => false) nullNode.id = true) :=
  C2_children_iff (fun _ => false) JSON.null nullNode nullNode_mem

/-! ### C7: the zoom clamp -/
theorem clamp_bounds (q : ℚ) :
    0.1 ≤ max 0.1 (min 3 q) ∧ max 0.1 (min 3 q) ≤ 3 := by
  constructor
  · exact le_max_left _ _
  · apply max_le (by norm_num)
    exact min_le_left _ _

theorem stepZoom_preserves (s : ViewportState) (ev : ZoomEvent)
    (h1 : 0.1 ≤ s.zoom) (h2 : s.zoom ≤ 3) :
    0.1 ≤ (stepZoom s ev).zoom ∧ (stepZoom s ev).zoom ≤ 3 := by
  cases ev with
  | wheel ctrl delta =>
      simp only [stepZoom]
      split
      · exact clamp_bounds _
      · exact ⟨h1, h2⟩
  | touchStart c d =>
      simp only [stepZoom]
      split
      · exact ⟨h1, h2⟩
      · exact ⟨h1, h2⟩
  | touchMove c d =>
      simp only [stepZoom]
      split
      · split
        · split
          · split
            · exact clamp_bounds _
            · exact ⟨h1, h2⟩
          · exact ⟨h1, h2⟩
        · exact ⟨h1, h2⟩
      · exact ⟨h1, h2⟩
  | touchEnd => exact ⟨h1, h2⟩

/-- C7: for every finite sequence of wheel/pinch events, however extreme
the deltas and distances, the zoom stays within `[0.1, 3.0]` after every
event, starting from any zoom already in that interval. -/
theorem C7_zoom_clamped (events : List ZoomEvent) (s : ViewportState)
    (h1 : 0.1 ≤ s.zoom) (h2 : s.zoom ≤ 3) :
    0.1 ≤ (events.foldl stepZoom s).zoom ∧ (events.foldl stepZoom s).zoom ≤ 3 := by
  induction events generalizing s with
  | nil => exact ⟨h1, h2⟩
  | cons ev rest ih =>
      simp only [List.foldl_cons]
      obtain ⟨g1, g2⟩ := stepZoom_preserves s ev h1 h2
      exact ih _ g1 g2

theorem C7_witness :
    0.1 ≤ (([ZoomEvent.wheel true 7, ZoomEvent.touchStart 2 10,
        ZoomEvent.touchMove 2 1000000, ZoomEvent.wheel true (-5),
        ZoomEvent.touchEnd].foldl stepZoom ⟨0.8, none⟩).zoom) ∧
    (([ZoomEvent.wheel true 7, ZoomEvent.touchStart 2 10,
        ZoomEvent.touchMove 2 1000000, ZoomEvent.wheel true (-5),
        ZoomEvent.touchEnd].foldl stepZoom ⟨0.8, none⟩).zoom) ≤ 3 :=
  C7_zoom_clamped
    [ZoomEvent.wheel true 7, ZoomEvent.touchStart 2 10,
     ZoomEvent.touchMove 2 1000000, ZoomEvent.wheel true (-5),
     ZoomEvent.touchEnd] ⟨0.8, none⟩ (by norm_num) (by norm_num)

/-! ### C8: blank vs invalid input -/
/-- C8: a blank input yields zero nodes and the `empty` overlay; a
non-blank input that fails to parse yields zero nodes (the traversal never
runs, the graph is rebuilt empty) and the `invalid JSON` overlay. -/
theorem C8_blank_and_invalid (parse : String → Option JSON) (E : String → Bool)
    (input : String) :
    (jsTrim input = "" →
      (createGraphRaw parse E input).nodes = [] ∧
      overlayMessage (createGraphRaw parse E input).nodes input =
        some "Enter JSON to visualize") ∧
    (jsTrim input ≠ "" → parse input = none →
      (createGraphRaw parse E input).nodes = [] ∧
      overlayMessage (createGraphRaw parse E input).nodes input =
        some "Invalid JSON format") := by
  constructor
  · intro hb
    have hn : (createGraphRaw parse E input).nodes = [] := by
      rw [createGraphRaw, if_neg (by simp [hb])]
      rfl
    refine ⟨hn, ?_⟩
    rw [hn, overlayMessage]
    simp [hb]
  · intro hnb hp
    have hn : (createGraphRaw parse E input).nodes = [] := by
      rw [createGraphRaw, if_pos hnb, hp]
      rfl
    refine ⟨hn, ?_⟩
    rw [hn, overlayMessage]
    simp [hnb]

theorem C8_witness :
    ((createGraphRaw (fun _ => none) (fun _ => false) "").nodes = [] ∧
      overlayMessage (createGraphRaw (fun _ => none) (fun _ => false) "").nodes "" =
        some "Enter JSON to visualize") ∧
    ((createGraphRaw (fun _ => none) (fun _ => false) "x").nodes = [] ∧
      overlayMessage (createGraphRaw (fun _ => none) (fun _ => false) "x").nodes "x" =
        some "Invalid JSON format") :=
  ⟨(C8_blank_and_invalid (fun _ => none) (fun _ => false) "").1 (by decide),
   (C8_blank_and_invalid (fun _ => none) (fun _ => false) "x").2 (by decide) rfl⟩

theorem get?_lt {α : Type} :
    ∀ (l : List α) (i : Nat), i < l.length → ∃ a, l.get? i = some a
  | [], i, h => by simp at h
  | x :: rest, 0, _ => ⟨x, rfl⟩
  | x :: rest, i + 1, h => get?_lt rest i (by simpa using h)

theorem set_get?_self {α : Type} :
    ∀ (l : List α) (i : Nat) (a : α), i < l.length → (l.set i a).get? i = some a
  | [], i, _, h => by simp at h
  | x :: rest, 0, a, _ => rfl
  | x :: rest, i + 1, a, h =>
      set_get?_self rest i a (by simpa using h)

theorem set_get?_ne {α : Type} :
    ∀ (l : List α) (i j : Nat) (a : α), i ≠ j → (l.set j a).get? i = l.get? i
  | [], _, _, _, _ => rfl
  | x :: rest, i, 0, a, h => by
      cases i with
      | zero => exact absurd rfl h
      | succ k => rfl
  | x :: rest, i, j + 1, a, h => by
      cases i with
      | zero => rfl
      | succ k =>
          show (rest.set j a).get? k = rest.get? k
          exact set_get?_ne rest k j a (fun he => h (by rw [he]))

theorem placeAll_length (order : List Nat) (y : Int) (nodes : List GraphNode) :
    (placeAll order y nodes).length = nodes.length := by
  have h := placeAll_map (fun _ => ()) (fun _ _ _ => rfl) order y nodes
  have h1 := congrArg List.length h
  simpa using h1

theorem placeAll_get?_not_mem :
    ∀ (order : List Nat) (y : Int) (nodes : List GraphNode) (j : Nat),
      j ∉ order → (placeAll order y nodes).get? j = nodes.get? j := by
  intro order
  induction order with
  | nil => intro y nodes j h; rfl
  | cons i rest ih =>
      intro y nodes j h
      have hji : j ≠ i := fun he => h (he ▸ List.mem_cons_self i rest)
      have hjr : j ∉ rest := fun he => h (List.mem_cons_of_mem i he)
      simp only [placeAll]
      cases hget : nodes.get? i with
      | none => exact ih y nodes j hjr
      | some n =>
          rw [ih _ _ j hjr, set_get?_ne nodes j i _ hji]

theorem placeAll_get_mem :
    ∀ (order : List Nat) (y : Int) (nodes : List GraphNode) (i : Nat),
      i ∈ order → order.Nodup → (∀ j ∈ order, j < nodes.length) →
      ∃ n y', nodes.get? i = some n ∧
        (placeAll order y nodes).get? i =
          some { n with x := (n.level : Int) * 300 + 50, y := y' } := by
  intro order
  induction order with
  | nil => intro y nodes i h; cases h
  | cons j rest ih =>
      intro y nodes i hmem hnd hbound
      obtain ⟨nj, hnj⟩ := get?_lt nodes j (hbound j (List.mem_cons_self j rest))
      simp only [placeAll, hnj]
      rcases List.mem_cons.mp hmem with rfl | hmem'
      · -- the visited index is the one we ask about
        have hnotr : i ∉ rest := (List.nodup_cons.mp hnd).1
        refine ⟨nj, y, hnj, ?_⟩
        rw [placeAll_get?_not_mem rest _ _ i hnotr,
          set_get?_self nodes i _ (hbound i (List.mem_cons_self i rest))]
      · have hij : i ≠ j := by
          intro he
          exact (List.nodup_cons.mp hnd).1 (he ▸ hmem')
        obtain ⟨n, y', hn, hres⟩ := ih (y + nj.height + 30)
          (nodes.set j { nj with x := (nj.level : Int) * 300 + 50, y := y })
          i hmem' (List.nodup_cons.mp hnd).2
          (fun k hk => by
            rw [List.length_set]
            exact hbound k (List.mem_cons_of_mem j hk))
        rw [set_get?_ne nodes i j _ hij] at hn
        exact ⟨n, y', hn, hres⟩

theorem placeAll_chain :
    ∀ (order : List Nat) (y : Int) (nodes : List GraphNode),
      order.Nodup → (∀ j ∈ order, j < nodes.length) →
      yChain y (order.filterMap (fun i => (placeAll order y nodes).get? i)) := by
  intro order
  induction order with
  | nil => intro y nodes _ _; trivial
  | cons i rest ih =>
      intro y nodes hnd hbound
      obtain ⟨n, hn⟩ := get?_lt nodes i (hbound i (List.mem_cons_self i rest))
      have hnotr : i ∉ rest := (List.nodup_cons.mp hnd).1
      simp only [placeAll, hn]
      rw [List.filterMap_cons]
      have hheadget : (placeAll rest (y + n.height + 30)
          (nodes.set i { n with x := (n.level : Int) * 300 + 50, y := y })).get? i =
          some { n with x := (n.level : Int) * 300 + 50, y := y } := by
        rw [placeAll_get?_not_mem rest _ _ i hnotr,
          set_get?_self nodes i _ (hbound i (List.mem_cons_self i rest))]
      rw [hheadget]
      refine ⟨rfl, ?_⟩
      have hch := ih (y + n.height + 30)
        (nodes.set i { n with x := (n.level : Int) * 300 + 50, y := y })
        (List.nodup_cons.mp hnd).2
        (fun k hk => by
          rw [List.length_set]
          exact hbound k (List.mem_cons_of_mem i hk))
      exact hch

theorem levelIndices_mem {nodes : List GraphNode} {l : Nat} {i : Nat}
    (h : i ∈ levelIndices nodes l) :
    i < nodes.length ∧ ∃ n, nodes.get? i = some n ∧ n.level = l := by
  obtain ⟨hr, hp⟩ := List.mem_filter.mp h
  refine ⟨List.mem_range.mp hr, ?_⟩
  cases hget : nodes.get? i with
  | none => rw [hget] at hp; simp at hp
  | some n =>
      rw [hget] at hp
      simp at hp
      exact ⟨n, rfl, hp⟩

theorem layoutOrder_bounds {nodes : List GraphNode} {i : Nat}
    (h : i ∈ layoutOrder nodes) : i < nodes.length := by
  obtain ⟨l, _, hi⟩ := List.mem_flatMap.mp h
  exact (levelIndices_mem hi).1

theorem layoutOrder_nodup (nodes : List GraphNode) : (layoutOrder nodes).Nodup := by
  rw [layoutOrder, List.nodup_flatMap]
  constructor
  · intro l _
    exact (List.nodup_range _).filter _
  · have hlev : (levelsOf nodes).Nodup := (List.nodup_range _).filter _
    apply List.Pairwise.imp _ (List.Nodup.pairwise_of_forall_ne hlev (fun a _ b _ h => h))
    intro l1 l2 hne
    intro i hi1 hi2
    obtain ⟨_, n1, hg1, hl1⟩ := levelIndices_mem hi1
    obtain ⟨_, n2, hg2, hl2⟩ := levelIndices_mem hi2
    rw [hg1] at hg2
    injection hg2 with he
    exact hne (by rw [← hl1, ← hl2, he])

theorem foldl_max_le_init : ∀ (l : List Nat) (a : Nat), a ≤ l.foldl max a
  | [], a => le_refl a
  | x :: rest, a =>
      le_trans (le_max_left a x) (foldl_max_le_init rest (max a x))

theorem mem_le_foldl_max : ∀ (l : List Nat) (a x : Nat), x ∈ l → x ≤ l.foldl max a
  | x' :: rest, a, x, h => by
      rcases List.mem_cons.mp h with rfl | h'
      · exact le_trans (le_max_right a x) (foldl_max_le_init rest (max a x))
      · exact mem_le_foldl_max rest (max a x') x h'

theorem layoutOrder_complete {nodes : List GraphNode} {i : Nat}
    (h : i < nodes.length) : i ∈ layoutOrder nodes := by
  obtain ⟨n, hn⟩ := get?_lt nodes i h
  have hnm : n ∈ nodes := List.get?_mem hn
  apply List.mem_flatMap.mpr
  refine ⟨n.level, ?_, ?_⟩
  · apply List.mem_filter.mpr
    constructor
    · apply List.mem_range.mpr
      have : n.level ∈ nodes.map (fun m => m.level) :=
        List.mem_map_of_mem _ hnm
      have := mem_le_foldl_max _ 0 _ this
      rw [maxLevel]
      omega
    · apply List.any_eq_true.mpr
      exact ⟨n, hnm, by simp⟩
  · apply List.mem_filter.mpr
    refine ⟨List.mem_range.mpr h, ?_⟩
    rw [hn]
    simp

theorem layoutOrder_congr {ns ms : List GraphNode}
    (h : ns.map (fun n => n.level) = ms.map (fun n => n.level)) :
    layoutOrder ns = layoutOrder ms := by
  have hlen : ns.length = ms.length := by
    have := congrArg List.length h
    simpa using this
  have hget : ∀ i, Option.map (fun (n : GraphNode) => n.level) (ns.get? i) =
      Option.map (fun (n : GraphNode) => n.level) (ms.get? i) := by
    intro i
    have h1 : (ns.map (fun n => n.level)).get? i =
        (ms.map (fun n => n.level)).get? i := by rw [h]
    simpa [List.get?_map] using h1
  have hmax : maxLevel ns = maxLevel ms := by
    rw [maxLevel, maxLevel, h]
  have key : ∀ (as bs : List GraphNode),
      as.map (fun n => n.level) = bs.map (fun n => n.level) → ∀ l : Nat,
      as.any (fun n => n.level = l) = true → bs.any (fun n => n.level = l) = true := by
    intro as bs hab l hany
    rcases List.any_eq_true.mp hany with ⟨n, hn, hl⟩
    have hli : n.level ∈ bs.map (fun m => m.level) := by
      rw [← hab]
      exact List.mem_map_of_mem _ hn
    rcases List.mem_map.mp hli with ⟨m, hm, he⟩
    apply List.any_eq_true.mpr
    refine ⟨m, hm, ?_⟩
    simp only [decide_eq_true_eq] at *
    omega
  have hany : ∀ l : Nat, (ns.any (fun n => n.level = l)) =
      (ms.any (fun n => n.level = l)) := by
    intro l
    rw [Bool.eq_iff_iff]
    exact ⟨key ns ms h l, key ms ns h.symm l⟩
  have hlev : levelsOf ns = levelsOf ms := by
    rw [levelsOf, levelsOf, hmax]
    apply List.filter_congr
    intro l _
    exact hany l
  have hind : ∀ l : Nat, levelIndices ns l = levelIndices ms l := by
    intro l
    rw [levelIndices, levelIndices, hlen]
    apply List.filter_congr
    intro i _
    have := hget i
    cases h1 : ns.get? i with
    | none =>
        rw [h1] at this
        cases h2 : ms.get? i with
        | none => rfl
        | some m => rw [h2] at this; simp at this
    | some n =>
        rw [h1] at this
        cases h2 : ms.get? i with
        | none => rw [h2] at this; simp at this
        | some m =>
            rw [h2] at this
            have he : n.level = m.level := by simpa using this
            simp [he]
  rw [layoutOrder, layoutOrder, hlev]
  apply List.flatMap_congr
  intro l _
  exact hind l

/-- C5: in the built graph every node sits at
`x = level * 300 + 50`, and reading the nodes grouped by level (levels
ascending, traversal order within a level) the `y` coordinates follow a
single cursor starting at 50 that advances by `height + 30` after each
placement. -/
theorem C5_layout (E : String → Bool) (parsed : JSON) :
    (∀ n ∈ (createGraph E parsed).nodes, n.x = (n.level : Int) * 300 + 50) ∧
    yChain 50 (inLayoutOrder (createGraph E parsed).nodes) := by
  have hlev : (createGraph E parsed).nodes.map (fun n => n.level) =
      (traverse E parsed "root" none 0 ⟨0, [], []⟩).nodes.map (fun n => n.level) :=
    positionNodes_map (fun n => n.level) (fun n a b => rfl) _
  have hlo : layoutOrder (createGraph E parsed).nodes =
      layoutOrder (traverse E parsed "root" none 0 ⟨0, [], []⟩).nodes :=
    layoutOrder_congr hlev
  have hpos : (createGraph E parsed).nodes =
      placeAll (layoutOrder (traverse E parsed "root" none 0 ⟨0, [], []⟩).nodes) 50
        (traverse E parsed "root" none 0 ⟨0, [], []⟩).nodes := rfl
  constructor
  · intro n hn
    obtain ⟨i, hi⟩ := List.mem_iff_get?.mp hn
    have hilen : i < (createGraph E parsed).nodes.length := by
      by_contra hge
      rw [List.get?_eq_none.mpr (by omega)] at hi
      cases hi
    have hilen' : i < (traverse E parsed "root" none 0 ⟨0, [], []⟩).nodes.length := by
      rw [hpos, placeAll_length] at hilen
      exact hilen
    obtain ⟨m, y', hm, hres⟩ := placeAll_get_mem
      (layoutOrder (traverse E parsed "root" none 0 ⟨0, [], []⟩).nodes) 50
      (traverse E parsed "root" none 0 ⟨0, [], []⟩).nodes i
      (layoutOrder_complete hilen') (layoutOrder_nodup _)
      (fun j hj => layoutOrder_bounds hj)
    rw [hpos] at hi
    rw [hres] at hi
    injection hi with he
    rw [← he]
  · rw [inLayoutOrder, hlo, hpos]
    exact placeAll_chain _ 50 _ (layoutOrder_nodup _) (fun j hj => layoutOrder_bounds hj)

theorem C5_witness :
    nullNode.x = (nullNode.level : Int) * 300 + 50 ∧
    yChain 50 (inLayoutOrder (createGraph (fun _ => false) JSON.null).nodes) :=
  ⟨(C5_layout (fun _ => false) JSON.null).1 nullNode nullNode_mem,
   (C5_layout (fun _ => false) JSON.null).2⟩

theorem idVals_addChild (p c : String) (l : List GraphNode) :
    idVals (addChild p c l) = idVals l :=
  addChild_map (fun n => (n.id, n.value)) (fun _ _ => rfl) p c l

theorem idVals_step (E : String → Bool) (value : JSON) (key : String)
    (parentId : Option String) (level : Nat) (st : TraverseState) :
    idVals (traverseStep E value key parentId level st).nodes =
      idVals st.nodes ++ [(nodeIdStr st.nodeId, value)] := by
  cases parentId with
  | none => simp [traverseStep, idVals, mkNode]
  | some p =>
      show idVals (addChild p (nodeIdStr st.nodeId)
        (st.nodes ++ [mkNode E value key (some p) level st.nodeId])) = _
      rw [idVals_addChild]
      simp [idVals, mkNode]

theorem m_all (E : String → Bool) :
    (∀ (value : JSON) (key : String) (parentId : Option String) (level : Nat)
        (st : TraverseState), MT E value key parentId level st) ∧
    (∀ (items : List JSON) (index : Nat) (parentId : String) (level : Nat)
        (st : TraverseState), MA E items index parentId level st) ∧
    (∀ (entries : List (String × JSON)) (parentId : String) (level : Nat)
        (st : TraverseState), MO E entries parentId level st) := by
  refine traverse.mutual_induct E
    (fun value key parentId level st => MT E value key parentId level st)
    (fun items index parentId level st => MA E items index parentId level st)
    (fun entries parentId level st => MO E entries parentId level st)
    ?_ ?_ ?_ ?_ ?_ ?_ ?_ ?_
  · intro key parentId level st currentId isExpanded edges2 kvs hasChildren
      extraHeight node nodes1 nodes2 st1 hcond ih
    have hcond' : (hasChildrenJSON (JSON.obj kvs) && E (nodeIdStr st.nodeId)) = true :=
      hcond
    have ih' : MO E kvs (nodeIdStr st.nodeId) (level + 1)
        (traverseStep E (JSON.obj kvs) key parentId level st) := ih
    obtain ⟨rest, hrest⟩ := ih'
    refine ⟨(nodeIdStr st.nodeId, JSON.obj kvs) :: rest, ?_⟩
    rw [show traverse E (JSON.obj kvs) key parentId level st =
        traverseObj E kvs (nodeIdStr st.nodeId) (level + 1)
          (traverseStep E (JSON.obj kvs) key parentId level st) by
      rw [traverse_unfold, if_pos hcond']]
    rw [hrest, idVals_step]
    simp
  · intro key parentId level st currentId isExpanded edges2 vs hasChildren
      extraHeight node nodes1 nodes2 st1 hcond ih
    have hcond' : (hasChildrenJSON (JSON.arr vs) && E (nodeIdStr st.nodeId)) = true :=
      hcond
    have ih' : MA E vs 0 (nodeIdStr st.nodeId) (level + 1)
        (traverseStep E (JSON.arr vs) key parentId level st) := ih
    obtain ⟨rest, hrest⟩ := ih'
    refine ⟨(nodeIdStr st.nodeId, JSON.arr vs) :: rest, ?_⟩
    rw [show traverse E (JSON.arr vs) key parentId level st =
        traverseArr E vs 0 (nodeIdStr st.nodeId) (level + 1)
          (traverseStep E (JSON.arr vs) key parentId level st) by
      rw [traverse_unfold, if_pos hcond']]
    rw [hrest, idVals_step]
    simp
  · intro value key parentId level st currentId isExpanded hasChildren hcond
      hnotobj hnotarr
    exfalso
    have hcond' : (hasChildrenJSON value && E (nodeIdStr st.nodeId)) = true := hcond
    rw [hasChildren_eq_false_of_not_container value hnotobj hnotarr] at hcond'
    simp at hcond'
  · intro value key parentId level st currentId isExpanded hasChildren hcond
    have hcond' : ¬(hasChildrenJSON value && E (nodeIdStr st.nodeId)) = true := hcond
    refine ⟨[(nodeIdStr st.nodeId, value)], ?_⟩
    rw [show traverse E value key parentId level st =
        traverseStep E value key parentId level st by
      rw [traverse_unfold, if_neg hcond']]
    exact idVals_step E value key parentId level st
  · intro index parentId level st
    refine ⟨[], ?_⟩
    rw [show traverseArr E [] index parentId level st = st by
      rw [traverseArr.eq_def]]
    simp
  · intro index parentId level st v rest iht ihr
    obtain ⟨r1, h1⟩ := iht
    obtain ⟨r2, h2⟩ := ihr
    refine ⟨r1 ++ r2, ?_⟩
    rw [show traverseArr E (v :: rest) index parentId level st =
        traverseArr E rest (index + 1) parentId level
          (traverse E v ("[" ++ Nat.repr index ++ "]") (some parentId) level st) by
      rw [traverseArr.eq_def]]
    rw [h2, h1, List.append_assoc]
  · intro parentId level st
    refine ⟨[], ?_⟩
    rw [show traverseObj E [] parentId level st = st by
      rw [traverseObj.eq_def]]
    simp
  · intro parentId level st k v rest iht ihr
    obtain ⟨r1, h1⟩ := iht
    obtain ⟨r2, h2⟩ := ihr
    refine ⟨r1 ++ r2, ?_⟩
    rw [show traverseObj E ((k, v) :: rest) parentId level st =
        traverseObj E rest parentId level
          (traverse E v k (some parentId) level st) by
      rw [traverseObj.eq_def]]
    rw [h2, h1, List.append_assoc]

theorem addChild_forall2 {L p c : String} :
    ∀ {l l' : List GraphNode}, List.Forall₂ (sameExcept L) l l' →
      List.Forall₂ (sameExcept L) (addChild p c l) (addChild p c l') := by
  intro l l' h
  induction h with
  | nil => exact List.Forall₂.nil
  | cons hr hrest ih =>
      rename_i a b as bs
      by_cases hid : a.id = p
      · have hid' : b.id = p := by rw [← hr.1]; exact hid
        simp only [addChild, if_pos hid, if_pos hid']
        refine List.Forall₂.cons ?_ hrest
        obtain ⟨h1, h2, h3, h4, h5, h6, h7, h8, h9, h10, h11, h12⟩ := hr
        exact ⟨h1, h2, h3, h4, h5, h6, h7, h8, by rw [h9], h10, h11, h12⟩
      · have hid' : ¬b.id = p := by rw [← hr.1]; exact hid
        simp only [addChild, if_neg hid, if_neg hid']
        exact List.Forall₂.cons hr ih

theorem forall2_map_id {L : String} :
    ∀ {l l' : List GraphNode}, List.Forall₂ (sameExcept L) l l' →
      l.map (fun n => n.id) = l'.map (fun n => n.id) := by
  intro l l' h
  induction h with
  | nil => rfl
  | cons hr hrest ih => simp [hr.1, ih]

theorem forall2_map_level {L : String} :
    ∀ {l l' : List GraphNode}, List.Forall₂ (sameExcept L) l l' →
      l.map (fun n => n.level) = l'.map (fun n => n.level) := by
  intro l l' h
  induction h with
  | nil => rfl
  | cons hr hrest ih => simp [hr.2.2.2.2.2.2.2.2.2.2.1, ih]

/-- One visit preserves the relation, provided the visited value is a leaf
whenever its id is the toggled one. -/
theorem relStep {E E' : String → Bool} {L : String} (value : JSON) (key : String)
    (parentId : Option String) (level : Nat) {st st' : TraverseState}
    (hEA : ∀ x, x ≠ L → E x = E' x)
    (hc : st.nodeId = st'.nodeId) (he : st.edges = st'.edges)
    (hF : List.Forall₂ (sameExcept L) st.nodes st'.nodes)
    (hleafOK : nodeIdStr st.nodeId = L → hasChildrenJSON value = false) :
    (traverseStep E value key parentId level st).nodeId =
      (traverseStep E' value key parentId level st').nodeId ∧
    (traverseStep E value key parentId level st).edges =
      (traverseStep E' value key parentId level st').edges ∧
    List.Forall₂ (sameExcept L)
      (traverseStep E value key parentId level st).nodes
      (traverseStep E' value key parentId level st').nodes := by
  have hnode : sameExcept L (mkNode E value key parentId level st.nodeId)
      (mkNode E' value key parentId level st'.nodeId) := by
    rw [← hc]
    refine ⟨rfl, rfl, rfl, rfl, rfl, rfl, rfl, ?_, rfl, rfl, rfl, ?_⟩
    · show (100 : Int) + _ = 100 + _
      congr 1
      by_cases hL : nodeIdStr st.nodeId = L
      · rw [hleafOK hL]
        simp
      · rw [hEA _ hL]
    · intro hne
      show E (nodeIdStr st.nodeId) = E' (nodeIdStr st.nodeId)
      exact hEA _ hne
  have happ : List.Forall₂ (sameExcept L)
      (st.nodes ++ [mkNode E value key parentId level st.nodeId])
      (st'.nodes ++ [mkNode E' value key parentId level st'.nodeId]) :=
    List.rel_append hF (List.Forall₂.cons hnode List.Forall₂.nil)
  refine ⟨by simp [traverseStep_nodeId, hc], ?_, ?_⟩
  · cases parentId with
    | none => exact he
    | some p =>
        show st.edges ++ _ = st'.edges ++ _
        rw [he, hc]
  · cases parentId with
    | none => exact happ
    | some p =>
        show List.Forall₂ (sameExcept L)
          (addChild p (nodeIdStr st.nodeId)
            (st.nodes ++ [mkNode E value key (some p) level st.nodeId]))
          (addChild p (nodeIdStr st'.nodeId)
            (st'.nodes ++ [mkNode E' value key (some p) level st'.nodeId]))
        rw [← hc] at happ ⊢
        exact addChild_forall2 happ

theorem r_all (E E' : String → Bool) (L : String) :
    (∀ (value : JSON) (key : String) (parentId : Option String) (level : Nat)
        (st : TraverseState), RT E E' L value key parentId level st) ∧
    (∀ (items : List JSON) (index : Nat) (parentId : String) (level : Nat)
        (st : TraverseState), RA E E' L items index parentId level st) ∧
    (∀ (entries : List (String × JSON)) (parentId : String) (level : Nat)
        (st : TraverseState), RO E E' L entries parentId level st) := by
  refine traverse.mutual_induct E
    (fun value key parentId level st => RT E E' L value key parentId level st)
    (fun items index parentId level st => RA E E' L items index parentId level st)
    (fun entries parentId level st => RO E E' L entries parentId level st)
    ?_ ?_ ?_ ?_ ?_ ?_ ?_ ?_
  · -- object with children, expanded
    intro key parentId level st currentId isExpanded edges2 kvs hasChildren
      extraHeight node nodes1 nodes2 st1 hcond ih
    intro st' hEA hc he hF hleaf
    have hcond' : (hasChildrenJSON (JSON.obj kvs) && E (nodeIdStr st.nodeId)) = true :=
      hcond
    have htrE : traverse E (JSON.obj kvs) key parentId level st =
        traverseObj E kvs (nodeIdStr st.nodeId) (level + 1)
          (traverseStep E (JSON.obj kvs) key parentId level st) := by
      rw [traverse_unfold, if_pos hcond']
    have hmemcur : (nodeIdStr st.nodeId, JSON.obj kvs) ∈
        idVals (traverse E (JSON.obj kvs) key parentId level st).nodes := by
      rw [htrE]
      obtain ⟨rest, hrest⟩ := (m_all E).2.2 kvs (nodeIdStr st.nodeId) (level + 1)
        (traverseStep E (JSON.obj kvs) key parentId level st)
      rw [hrest, idVals_step]
      simp
    have hnotL : nodeIdStr st.nodeId ≠ L := by
      intro hL
      have hfalse := hleaf _ hmemcur hL
      rw [hfalse] at hcond'
      simp at hcond'
    have hcondE' : (hasChildrenJSON (JSON.obj kvs) && E' (nodeIdStr st'.nodeId))
        = true := by
      rw [← hc, ← hEA _ hnotL]
      exact hcond'
    have htrE' : traverse E' (JSON.obj kvs) key parentId level st' =
        traverseObj E' kvs (nodeIdStr st.nodeId) (level + 1)
          (traverseStep E' (JSON.obj kvs) key parentId level st') := by
      rw [traverse_unfold, if_pos hcondE', ← hc]
    obtain ⟨rc, re, rF⟩ := relStep (JSON.obj kvs) key parentId level hEA hc he hF
      (fun hL => absurd hL hnotL)
    have ih' : RO E E' L kvs (nodeIdStr st.nodeId) (level + 1)
        (traverseStep E (JSON.obj kvs) key parentId level st) := ih
    rw [htrE] at hleaf
    obtain ⟨g1, g2, g3⟩ := ih'
      (traverseStep E' (JSON.obj kvs) key parentId level st') hEA rc re rF hleaf
    rw [htrE, htrE']
    exact ⟨g1, g2, g3⟩
  · -- array with children, expanded
    intro key parentId level st currentId isExpanded edges2 vs hasChildren
      extraHeight node nodes1 nodes2 st1 hcond ih
    intro st' hEA hc he hF hleaf
    have hcond' : (hasChildrenJSON (JSON.arr vs) && E (nodeIdStr st.nodeId)) = true :=
      hcond
    have htrE : traverse E (JSON.arr vs) key parentId level st =
        traverseArr E vs 0 (nodeIdStr st.nodeId) (level + 1)
          (traverseStep E (JSON.arr vs) key parentId level st) := by
      rw [traverse_unfold, if_pos hcond']
    have hmemcur : (nodeIdStr st.nodeId, JSON.arr vs) ∈
        idVals (traverse E (JSON.arr vs) key parentId level st).nodes := by
      rw [htrE]
      obtain ⟨rest, hrest⟩ := (m_all E).2.1 vs 0 (nodeIdStr st.nodeId) (level + 1)
        (traverseStep E (JSON.arr vs) key parentId level st)
      rw [hrest, idVals_step]
      simp
    have hnotL : nodeIdStr st.nodeId ≠ L := by
      intro hL
      have hfalse := hleaf _ hmemcur hL
      rw [hfalse] at hcond'
      simp at hcond'
    have hcondE' : (hasChildrenJSON (JSON.arr vs) && E' (nodeIdStr st'.nodeId))
        = true := by
      rw [← hc, ← hEA _ hnotL]
      exact hcond'
    have htrE' : traverse E' (JSON.arr vs) key parentId level st' =
        traverseArr E' vs 0 (nodeIdStr st.nodeId) (level + 1)
          (traverseStep E' (JSON.arr vs) key parentId level st') := by
      rw [traverse_unfold, if_pos hcondE', ← hc]
    obtain ⟨rc, re, rF⟩ := relStep (JSON.arr vs) key parentId level hEA hc he hF
      (fun hL => absurd hL hnotL)
    have ih' : RA E E' L vs 0 (nodeIdStr st.nodeId) (level + 1)
        (traverseStep E (JSON.arr vs) key parentId level st) := ih
    rw [htrE] at hleaf
    obtain ⟨g1, g2, g3⟩ := ih'
      (traverseStep E' (JSON.arr vs) key parentId level st') hEA rc re rF hleaf
    rw [htrE, htrE']
    exact ⟨g1, g2, g3⟩
  · -- expanded but not a container: impossible
    intro value key parentId level st currentId isExpanded hasChildren hcond
      hnotobj hnotarr
    intro st' hEA hc he hF hleaf
    exfalso
    have hcond' : (hasChildrenJSON value && E (nodeIdStr st.nodeId)) = true := hcond
    rw [hasChildren_eq_false_of_not_container value hnotobj hnotarr] at hcond'
    simp at hcond'
  · -- collapsed or no children
    intro value key parentId level st currentId isExpanded hasChildren hcond
    intro st' hEA hc he hF hleaf
    have hcond' : ¬(hasChildrenJSON value && E (nodeIdStr st.nodeId)) = true := hcond
    have htrE : traverse E value key parentId level st =
        traverseStep E value key parentId level st := by
      rw [traverse_unfold, if_neg hcond']
    have hmemcur : (nodeIdStr st.nodeId, value) ∈
        idVals (traverse E value key parentId level st).nodes := by
      rw [htrE, idVals_step]
      simp
    have hleafstep : nodeIdStr st.nodeId = L → hasChildrenJSON value = false :=
      fun hL => hleaf _ hmemcur hL
    have hcondE' : ¬(hasChildrenJSON value && E' (nodeIdStr st'.nodeId)) = true := by
      rw [← hc]
      by_cases hL : nodeIdStr st.nodeId = L
      · rw [hleafstep hL]
        simp
      · rw [← hEA _ hL]
        exact hcond'
    have htrE' : traverse E' value key parentId level st' =
        traverseStep E' value key parentId level st' := by
      rw [traverse_unfold, if_neg hcondE']
    rw [htrE, htrE']
    exact relStep value key parentId level hEA hc he hF hleafstep
  · -- traverseArr []
    intro index parentId level st
    intro st' hEA hc he hF hleaf
    rw [show traverseArr E [] index parentId level st = st by rw [traverseArr.eq_def],
      show traverseArr E' [] index parentId level st' = st' by rw [traverseArr.eq_def]]
    exact ⟨hc, he, hF⟩
  · -- traverseArr cons
    intro index parentId level st v rest iht ihr
    intro st' hEA hc he hF hleaf
    have htrE : traverseArr E (v :: rest) index parentId level st =
        traverseArr E rest (index + 1) parentId level
          (traverse E v ("[" ++ Nat.repr index ++ "]") (some parentId) level st) := by
      rw [traverseArr.eq_def]
    have htrE' : traverseArr E' (v :: rest) index parentId level st' =
        traverseArr E' rest (index + 1) parentId level
          (traverse E' v ("[" ++ Nat.repr index ++ "]") (some parentId) level st') := by
      rw [traverseArr.eq_def]
    rw [htrE] at hleaf
    have hleaf1 : ∀ pr ∈ idVals
        (traverse E v ("[" ++ Nat.repr index ++ "]") (some parentId) level st).nodes,
        pr.1 = L → hasChildrenJSON pr.2 = false := by
      intro pr hpr hL
      obtain ⟨r, hr⟩ := (m_all E).2.1 rest (index + 1) parentId level
        (traverse E v ("[" ++ Nat.repr index ++ "]") (some parentId) level st)
      exact hleaf pr (by rw [hr]; exact List.mem_append_left _ hpr) hL
    obtain ⟨g1, g2, g3⟩ := iht st' hEA hc he hF hleaf1
    obtain ⟨f1, f2, f3⟩ := ihr
      (traverse E' v ("[" ++ Nat.repr index ++ "]") (some parentId) level st')
      hEA g1 g2 g3 hleaf
    rw [htrE, htrE']
    exact ⟨f1, f2, f3⟩
  · -- traverseObj []
    intro parentId level st
    intro st' hEA hc he hF hleaf
    rw [show traverseObj E [] parentId level st = st by rw [traverseObj.eq_def],
      show traverseObj E' [] parentId level st' = st' by rw [traverseObj.eq_def]]
    exact ⟨hc, he, hF⟩
  · -- traverseObj cons
    intro parentId level st k v rest iht ihr
    intro st' hEA hc he hF hleaf
    have htrE : traverseObj E ((k, v) :: rest) parentId level st =
        traverseObj E rest parentId level
          (traverse E v k (some parentId) level st) := by
      rw [traverseObj.eq_def]
    have htrE' : traverseObj E' ((k, v) :: rest) parentId level st' =
        traverseObj E' rest parentId level
          (traverse E' v k (some parentId) level st') := by
      rw [traverseObj.eq_def]
    rw [htrE] at hleaf
    have hleaf1 : ∀ pr ∈ idVals
        (traverse E v k (some parentId) level st).nodes,
        pr.1 = L → hasChildrenJSON pr.2 = false := by
      intro pr hpr hL
      obtain ⟨r, hr⟩ := (m_all E).2.2 rest parentId level
        (traverse E v k (some parentId) level st)
      exact hleaf pr (by rw [hr]; exact List.mem_append_left _ hpr) hL
    obtain ⟨g1, g2, g3⟩ := iht st' hEA hc he hF hleaf1
    obtain ⟨f1, f2, f3⟩ := ihr
      (traverse E' v k (some parentId) level st')
      hEA g1 g2 g3 hleaf
    rw [htrE, htrE']
    exact ⟨f1, f2, f3⟩

theorem forall2_get? {L : String} :
    ∀ {l l' : List GraphNode}, List.Forall₂ (sameExcept L) l l' → ∀ i : Nat,
      (l.get? i = none ∧ l'.get? i = none) ∨
      ∃ a b, l.get? i = some a ∧ l'.get? i = some b ∧ sameExcept L a b := by
  intro l l' h
  induction h with
  | nil => intro i; exact Or.inl ⟨rfl, rfl⟩
  | cons hr hrest ih =>
      intro i
      cases i with
      | zero => exact Or.inr ⟨_, _, rfl, rfl, hr⟩
      | succ j => exact ih j

theorem forall2_set {L : String} :
    ∀ {l l' : List GraphNode}, List.Forall₂ (sameExcept L) l l' →
      ∀ (i : Nat) (a b : GraphNode), sameExcept L a b →
      List.Forall₂ (sameExcept L) (l.set i a) (l'.set i b) := by
  intro l l' h
  induction h with
  | nil => intro i a b hab; exact List.Forall₂.nil
  | cons hr hrest ih =>
      intro i a b hab
      cases i with
      | zero => exact List.Forall₂.cons hab hrest
      | succ j => exact List.Forall₂.cons hr (ih j a b hab)

theorem placeAll_forall2 {L : String} :
    ∀ (order : List Nat) (y : Int) {ns ns' : List GraphNode},
      List.Forall₂ (sameExcept L) ns ns' →
      List.Forall₂ (sameExcept L) (placeAll order y ns) (placeAll order y ns') := by
  intro order
  induction order with
  | nil => intro y ns ns' h; exact h
  | cons i rest ih =>
      intro y ns ns' h
      simp only [placeAll]
      rcases forall2_get? h i with ⟨h1, h2⟩ | ⟨a, b, h1, h2, hab⟩
      · rw [h1, h2]
        exact ih y h
      · rw [h1, h2]
        have hab' : sameExcept L
            { a with x := (a.level : Int) * 300 + 50, y := y }
            { b with x := (b.level : Int) * 300 + 50, y := y } := by
          obtain ⟨e1, e2, e3, e4, e5, e6, e7, e8, e9, e10, e11, e12⟩ := hab
          exact ⟨e1, e2, e3, e4, by rw [e11], rfl, e7, e8, e9, e10, e11, e12⟩
        have hh : a.height = b.height := hab.2.2.2.2.2.2.2.1
        show List.Forall₂ (sameExcept L)
          (placeAll rest (y + a.height + 30)
            (ns.set i { a with x := (a.level : Int) * 300 + 50, y := y }))
          (placeAll rest (y + b.height + 30)
            (ns'.set i { b with x := (b.level : Int) * 300 + 50, y := y }))
        rw [show y + a.height + 30 = y + b.height + 30 from by rw [hh]]
        exact ih _ (forall2_set h i _ _ hab')

theorem positionNodes_forall2 {L : String} {ns ns' : List GraphNode}
    (h : List.Forall₂ (sameExcept L) ns ns') :
    List.Forall₂ (sameExcept L) (positionNodes ns) (positionNodes ns') := by
  rw [positionNodes, positionNodes, layoutOrder_congr (forall2_map_level h)]
  exact placeAll_forall2 _ 50 h

/-- C3 (amended): toggling a leaf id `L` in the expansion set changes at
most the `isExpanded` flag of the node with id `L`; every other field of
every node, all positions, and all edges are unchanged. -/
theorem C3_toggle_leaf (E : String → Bool) (L : String) (parsed : JSON)
    (hleaf : ∀ n ∈ (createGraph (withoutId E L) parsed).nodes,
      n.id = L → hasChildrenJSON n.value = false) :
    (createGraph (withoutId E L) parsed).edges =
      (createGraph (withId E L) parsed).edges ∧
    List.Forall₂ (sameExcept L) (createGraph (withoutId E L) parsed).nodes
      (createGraph (withId E L) parsed).nodes := by
  have hEA : ∀ x, x ≠ L → withoutId E L x = withId E L x := by
    intro x hx
    simp [withoutId, withId, hx]
  have hleaf' : ∀ pr ∈ idVals
      (traverse (withoutId E L) parsed "root" none 0 ⟨0, [], []⟩).nodes,
      pr.1 = L → hasChildrenJSON pr.2 = false := by
    intro pr hpr hL
    have hidv : idVals (createGraph (withoutId E L) parsed).nodes =
        idVals (traverse (withoutId E L) parsed "root" none 0 ⟨0, [], []⟩).nodes :=
      positionNodes_map (fun n => (n.id, n.value)) (fun _ _ _ => rfl) _
    rw [← hidv] at hpr
    rcases List.mem_map.mp hpr with ⟨n, hn, he⟩
    subst he
    exact hleaf n hn hL
  obtain ⟨hcnt, hedg, hns⟩ :=
    (r_all (withoutId E L) (withId E L) L).1 parsed "root" none 0 ⟨0, [], []⟩
      ⟨0, [], []⟩ hEA rfl rfl List.Forall₂.nil hleaf'
  exact ⟨hedg, positionNodes_forall2 hns⟩

theorem withBuild_nodes :
    (createGraph (withId (fun _ => false) "node-0") JSON.null).nodes =
      [{ nullNode with isExpanded := true }] := by
  have htr : traverse (withId (fun _ => false) "node-0") JSON.null "root" none 0
      ⟨0, [], []⟩ =
      traverseStep (withId (fun _ => false) "node-0") JSON.null "root" none 0
        ⟨0, [], []⟩ := by
    rw [traverse_unfold]
    rfl
  show positionNodes (traverse (withId (fun _ => false) "node-0") JSON.null "root"
    none 0 ⟨0, [], []⟩).nodes = _
  rw [htr]
  rfl

theorem withoutBuild_nodes :
    (createGraph (withoutId (fun _ => false) "node-0") JSON.null).nodes =
      [nullNode] := by
  have htr : traverse (withoutId (fun _ => false) "node-0") JSON.null "root" none 0
      ⟨0, [], []⟩ =
      traverseStep (withoutId (fun _ => false) "node-0") JSON.null "root" none 0
        ⟨0, [], []⟩ := by
    rw [traverse_unfold]
    rfl
  show positionNodes (traverse (withoutId (fun _ => false) "node-0") JSON.null
    "root" none 0 ⟨0, [], []⟩).nodes = _
  rw [htr]
  rfl

/-- C3 is false as stated: for the document `null` and the leaf id
`node-0`, the two builds differ — the node's `isExpanded` field mirrors
membership, so it flips with the toggle even on a leaf. -/
theorem C3_counterexample :
    (∀ n ∈ (createGraph (withoutId (fun _ => false) "node-0") JSON.null).nodes,
        n.id = "node-0" → hasChildrenJSON n.value = false) ∧
    (createGraph (withId (fun _ => false) "node-0") JSON.null).nodes ≠
      (createGraph (withoutId (fun _ => false) "node-0") JSON.null).nodes := by
  constructor
  · intro n hn _
    rw [withoutBuild_nodes] at hn
    rw [List.mem_singleton.mp hn]
    rfl
  · rw [withBuild_nodes, withoutBuild_nodes]
    intro h
    have h2 := congrArg (fun l => l.map (fun n => n.isExpanded)) h
    simp [nullNode] at h2

theorem C3_witness :
    (createGraph (withoutId (fun _ => false) "node-0") JSON.null).edges =
      (createGraph (withId (fun _ => false) "node-0") JSON.null).edges ∧
    List.Forall₂ (sameExcept "node-0")
      (createGraph (withoutId (fun _ => false) "node-0") JSON.null).nodes
      (createGraph (withId (fun _ => false) "node-0") JSON.null).nodes :=
  C3_toggle_leaf (fun _ => false) "node-0" JSON.null (by
    intro n hn _
    rw [withoutBuild_nodes] at hn
    rw [List.mem_singleton.mp hn]
    rfl)

end JsonVisualizer

